import Mathlib

/-!
Shallow embedding of `src/mono/metadata/mono-conc-hash.c`, the concurrent
GC-aware open-addressing hash table, together with proofs about its
sequential (single-mutator) semantics.

Modelling conventions:
* pointers (`gpointer`) are 64-bit bit patterns, modelled as `Nat`, with `0`
  for the null pointer;
* machine `int` counters are modelled as `Int`;
* 32-bit `int` hash arithmetic is modelled on bit patterns (`Nat` below
  `2 ^ 32`) with explicit wraparound, and the C right shift of a signed
  `int` is the sign-extending (arithmetic) shift;
* every probe loop of the source is a fueled recursion (`scanLoop`); fuel
  exhaustion (`none` / `diverge`) marks an execution that has not terminated
  within the given number of loop iterations;
* GC write barriers, hazard pointers and memory fences are no-ops in the
  sequential model; the lookup retry paths of the source are kept (the
  value-is-null retry restarts the probe, the table-changed recheck compares
  the re-read generation with the one probed, which in a sequential
  execution is the same generation, so it reports not-found directly).
-/

namespace MonoConcHash

/-- Pointers are 64-bit bit patterns; `0` is the null pointer. -/
abbrev Ptr := Nat

/-- `PTR_TOMBSTONE`, i.e. `(gpointer)(ssize_t)-1`, on a 64-bit target.
In the `MONO_HASH_KEY_GC` modes the source uses the domain's ephemeron
tombstone object instead; both are distinguished non-null patterns that are
never valid caller keys, and the model represents either by this value. -/
def PTR_TOMBSTONE : Ptr := 2 ^ 64 - 1

def INITIAL_SIZE : Nat := 32

/-- `(int)(size * LOAD_FACTOR)` with `LOAD_FACTOR = 0.75f`.  For the sizes
this table ever has (powers of two), `size * 0.75f` is exact in binary
floating point (the product `3 * 2 ^ (k - 2)` needs only two significand
bits), so the cast-to-`int` result is exactly `3 * size / 4`. -/
def load_threshold (size : Nat) : Int := ((3 * size) / 4 : Nat)

/-- `EXPAND_RATIO` of the source (the doubling factor used by the resize
engine). -/
def expandFactor : Nat := 2

/-- Arithmetic (sign-extending) right shift by 16 of a 32-bit pattern: the
C expression `x >> 16` where `x` is a signed `int` holding this pattern. -/
def asr16of32 (a : Nat) : Nat :=
  if a < 2 ^ 31 then a / 2 ^ 16 else a / 2 ^ 16 + (2 ^ 32 - 2 ^ 16)

/-- `mix_hash` of the source: `((hash * 215497) >> 16) ^ (hash * 1823231 + hash)`
computed on `int` (32-bit two's complement with wraparound), expressed on
bit patterns. -/
def mix_hash (hashv : Nat) : Nat :=
  asr16of32 ((hashv * 215497) % 2 ^ 32) ^^^ ((hashv * 1823231 + hashv) % 2 ^ 32)

/-- glib's `g_direct_hash`: the pointer value itself, truncated to `guint`. -/
def g_direct_hash (p : Ptr) : Nat := p % 2 ^ 32

/-- `key_is_tombstone` of the source (both GC modes compare against the
distinguished tombstone pattern, see `PTR_TOMBSTONE`). -/
def key_is_tombstone (ptr : Ptr) : Bool := ptr == PTR_TOMBSTONE

/-- `i = hash & table_mask`, the home-slot computation of every operation. -/
def homeIdx (hashv mask : Nat) : Nat := hashv &&& mask

/-- `i = (i + 1) & table_mask`, the linear-probe step of every operation. -/
def nextIdx (i mask : Nat) : Nat := (i + 1) &&& mask

/-- `conc_table`: one generation of the table. -/
structure conc_table where
  table_size : Nat
  gc_type : Nat
  keys : List Ptr
  values : List Ptr

/-- `table->keys [i]` (reads out of range return the null pattern; all
reachable tables have `keys.length = table_size`). -/
def slot_key (t : conc_table) (i : Nat) : Ptr := t.keys.getD i 0

/-- `table->values [i]`. -/
def slot_value (t : conc_table) (i : Nat) : Ptr := t.values.getD i 0

/-- `set_key` (the GC write barrier is a no-op in the model). -/
def set_key (t : conc_table) (slot : Nat) (key : Ptr) : conc_table :=
  { t with keys := t.keys.set slot key }

/-- `set_value`. -/
def set_value (t : conc_table) (slot : Nat) (value : Ptr) : conc_table :=
  { t with values := t.values.set slot value }

/-- `set_key_to_tombstone`. -/
def set_key_to_tombstone (t : conc_table) (slot : Nat) : conc_table :=
  set_key t slot PTR_TOMBSTONE

/-- `conc_table_new`: freshly allocated zeroed arrays.  The `gc_type`
argument is the value of `hash->gc_type` at the moment of the call (note
that the constructor creates its first generation before storing the
caller's type, so the initial generation records type `0`). -/
def conc_table_new (gc_type size : Nat) : conc_table :=
  { table_size := size, gc_type := gc_type
    keys := List.replicate size 0, values := List.replicate size 0 }

/-- A key cell holding a live (occupied-slot) key: non-null, not the
tombstone. -/
abbrev live_key (k : Ptr) : Prop := k ≠ 0 ∧ k ≠ PTR_TOMBSTONE

/-- Slot `i` of `t` is occupied. -/
abbrev live_at (t : conc_table) (i : Nat) : Prop := live_key (slot_key t i)

/-- The key/value pairs of the occupied slots of `t`, in slot order. -/
def liveEntries (t : conc_table) : List (Ptr × Ptr) :=
  (List.range t.table_size).filterMap (fun i =>
    if slot_key t i ≠ 0 ∧ slot_key t i ≠ PTR_TOMBSTONE then
      some (slot_key t i, slot_value t i)
    else none)

def liveKeys (t : conc_table) : List Ptr := (liveEntries t).map Prod.fst

/-- The number of occupied slots of `t`. -/
def liveCount (t : conc_table) : Nat := (liveEntries t).length

/-- `MonoConcGHashTable`.  The destroy callbacks are modelled by
configuration flags; operations report the arguments the callbacks would
have been invoked on.  (This translation unit never sets them, so they are
`false` on every table it can build.) -/
structure MonoConcGHashTable where
  table : conc_table
  hash_func : Ptr → Nat
  equal_func : Option (Ptr → Ptr → Bool)
  element_count : Int
  overflow_count : Int
  key_destroy_func : Bool
  value_destroy_func : Bool
  gc_type : Nat

/-- Result of `mono_conc_g_hash_table_lookup_extended`: `found` carries
`*orig_key_ptr` and `*value_ptr` of the `TRUE` case. -/
inductive LookupResult where
  | found (orig_key value : Ptr)
  | notFound
  deriving DecidableEq

/-- Exits of one lookup probe loop: return a result, or restart the whole
lookup (the source's `goto retry` on a null value). -/
inductive ProbeExit where
  | ret (r : LookupResult)
  | retry
  deriving DecidableEq

/-- The shared shape of every probe loop of the source: visit `i`, exit if
the body says so, otherwise advance `i = (i + 1) & table_mask` and repeat.
`none` means the loop has not exited within `fuel` iterations. -/
def scanLoop {β : Type} (f : Nat → Option β) (mask : Nat) : Nat → Nat → Option β
  | _, 0 => none
  | i, fuel + 1 =>
    match f i with
    | some b => some b
    | none => scanLoop f mask (nextIdx i mask) fuel

/-- Body of the lookup probe loops (both branches of
`mono_conc_g_hash_table_lookup_extended`). -/
def lookup_probe_step (equal_func : Option (Ptr → Ptr → Bool)) (t : conc_table)
    (key : Ptr) (i : Nat) : Option ProbeExit :=
  match equal_func with
  | none =>
    let orig_key := slot_key t i
    if orig_key = 0 then some (.ret .notFound)
    else if key = orig_key then
      (if slot_value t i = 0 then some .retry
       else some (.ret (.found orig_key (slot_value t i))))
    else none
  | some equal =>
    let orig_key := slot_key t i
    if orig_key = 0 then some (.ret .notFound)
    else if key_is_tombstone orig_key = false ∧ equal key orig_key = true then
      (if slot_value t i = 0 then some .retry
       else some (.ret (.found orig_key (slot_value t i))))
    else none

/-- `mono_conc_g_hash_table_lookup_extended`.  The while loop ends either at
a null key cell (then the staleness recheck compares the re-read generation
pointer with the probed one — equal in a sequential execution — and the
function reports not-found), on a match with a non-null value (found), or on
a match with a null value (`goto retry`, which restarts the probe). -/
def mono_conc_g_hash_table_lookup_extended (hash_table : MonoConcGHashTable)
    (key : Ptr) : Nat → Option LookupResult
  | 0 => none
  | fuel + 1 =>
    let table := hash_table.table
    let table_mask := table.table_size - 1
    let hashv := mix_hash (hash_table.hash_func key)
    match scanLoop (lookup_probe_step hash_table.equal_func table key) table_mask
        (homeIdx hashv table_mask) (fuel + 1) with
    | some (.ret r) => some r
    | some .retry => mono_conc_g_hash_table_lookup_extended hash_table key fuel
    | none => none

/-- `insert_one_local`: the non-fenced reinsert primitive of the resize
engine; stops at the first null key cell (the new generation has no
tombstones) and writes key then value. -/
def insert_one_local (t : conc_table) (hash_func : Ptr → Nat) (key value : Ptr)
    (fuel : Nat) : Option conc_table :=
  scanLoop
    (fun i =>
      if slot_key t i = 0 then some (set_value (set_key t i key) i value) else none)
    (t.table_size - 1) (homeIdx (mix_hash (hash_func key)) (t.table_size - 1)) fuel

/-- The reinsertion walk of `expand_table` over the old generation's slots
(key/value cell pairs in slot order). -/
def expand_loop (hash_func : Ptr → Nat) (fuel : Nat) :
    List (Ptr × Ptr) → conc_table → Option conc_table
  | [], acc => some acc
  | (k, v) :: rest, acc =>
    if k ≠ 0 ∧ key_is_tombstone k = false then
      match insert_one_local acc hash_func k v fuel with
      | none => none
      | some acc2 => expand_loop hash_func fuel rest acc2
    else expand_loop hash_func fuel rest acc

/-- `expand_table`: allocate a generation of twice the size, reinsert every
live entry, publish it and install the new resize threshold. -/
def expand_table (hash_table : MonoConcGHashTable) (fuel : Nat) :
    Option MonoConcGHashTable :=
  let old_table := hash_table.table
  match expand_loop hash_table.hash_func fuel (old_table.keys.zip old_table.values)
      (conc_table_new hash_table.gc_type (old_table.table_size * expandFactor)) with
  | none => none
  | some new_table =>
    some { hash_table with
           table := new_table
           overflow_count := load_threshold new_table.table_size }

/-- Result of `mono_conc_g_hash_table_insert`: `assertFail` is a failed
`g_assert`, `diverge` is a probe loop that did not exit within the fuel,
`ok old h2` is a normal return (`old = none` is the C `NULL` success
return). -/
inductive InsertResult where
  | assertFail
  | diverge
  | ok (old_value : Option Ptr) (h2 : MonoConcGHashTable)

/-- Exits of the insert probe loop body. -/
inductive InsStep where
  | inserted (t2 : conc_table)
  | existing (v : Ptr)

/-- Body of the insert probe loops (both branches): a null or tombstoned key
cell takes the slot (value written before key), a matching key returns the
existing value, anything else probes on. -/
def insert_probe_step (equal_func : Option (Ptr → Ptr → Bool)) (t : conc_table)
    (key value : Ptr) (i : Nat) : Option InsStep :=
  match equal_func with
  | none =>
    let cur_key := slot_key t i
    if cur_key = 0 ∨ key_is_tombstone cur_key = true then
      some (.inserted (set_key (set_value t i value) i key))
    else if key = cur_key then some (.existing (slot_value t i))
    else none
  | some equal =>
    let cur_key := slot_key t i
    if cur_key = 0 ∨ key_is_tombstone cur_key = true then
      some (.inserted (set_key (set_value t i value) i key))
    else if equal key cur_key = true then some (.existing (slot_value t i))
    else none

/-- The probe-and-write phase of `mono_conc_g_hash_table_insert` (the part
after the implicit resize). -/
def insert_probe_phase (h1 : MonoConcGHashTable) (key value : Ptr)
    (fuel : Nat) : InsertResult :=
  let table := h1.table
  let table_mask := table.table_size - 1
  let hashv := mix_hash (h1.hash_func key)
  match scanLoop (insert_probe_step h1.equal_func table key value) table_mask
      (homeIdx hashv table_mask) fuel with
  | none => .diverge
  | some (.existing v) => .ok (some v) h1
  | some (.inserted t2) =>
    .ok none { h1 with table := t2, element_count := h1.element_count + 1 }

/-- `mono_conc_g_hash_table_insert`. -/
def mono_conc_g_hash_table_insert (hash_table : MonoConcGHashTable)
    (key value : Ptr) (fuel : Nat) : InsertResult :=
  if key = 0 then .assertFail
  else if value = 0 then .assertFail
  else
    match (if hash_table.overflow_count ≤ hash_table.element_count then
             expand_table hash_table fuel
           else some hash_table) with
    | none => .diverge
    | some h1 => insert_probe_phase h1 key value fuel

/-- Exits of the remove probe loop body. -/
inductive RemStep where
  | notFound
  | removed (value : Ptr) (t2 : conc_table) (cur_key : Ptr)

/-- Result of `mono_conc_g_hash_table_remove`; `key_destroyed` /
`value_destroyed` report the argument each configured destroy callback was
invoked on (`none` when not configured or nothing was removed). -/
inductive RemoveResult where
  | assertFail
  | diverge
  | ok (value : Option Ptr) (h2 : MonoConcGHashTable)
      (key_destroyed value_destroyed : Option Ptr)

/-- Body of the remove probe loops (both branches): a null key cell means
not-found; a match nulls the value cell and then tombstones the key cell. -/
def remove_probe_step (equal_func : Option (Ptr → Ptr → Bool)) (t : conc_table)
    (key : Ptr) (i : Nat) : Option RemStep :=
  match equal_func with
  | none =>
    let cur_key := slot_key t i
    if cur_key = 0 then some .notFound
    else if key = cur_key then
      some (.removed (slot_value t i) (set_key_to_tombstone (set_value t i 0) i) cur_key)
    else none
  | some equal =>
    let cur_key := slot_key t i
    if cur_key = 0 then some .notFound
    else if key_is_tombstone cur_key = false ∧ equal key cur_key = true then
      some (.removed (slot_value t i) (set_key_to_tombstone (set_value t i 0) i) cur_key)
    else none

/-- The identity-comparison branch of `mono_conc_g_hash_table_remove`: on a
hit, null the value cell, tombstone the key cell, decrement the live count,
and report the configured destroy callbacks. -/
def remove_phase_direct (hash_table : MonoConcGHashTable) (key : Ptr)
    (fuel : Nat) : RemoveResult :=
  let table := hash_table.table
  let table_mask := table.table_size - 1
  let hashv := mix_hash (hash_table.hash_func key)
  match scanLoop (remove_probe_step none table key) table_mask
      (homeIdx hashv table_mask) fuel with
  | none => .diverge
  | some .notFound => .ok none hash_table none none
  | some (.removed v t2 ck) =>
    .ok (some v)
      { hash_table with table := t2, element_count := hash_table.element_count - 1 }
      (if hash_table.key_destroy_func then some ck else none)
      (if hash_table.value_destroy_func then some v else none)

/-- The equality-function branch of `mono_conc_g_hash_table_remove`: same as
the identity branch except that the source omits the `element_count`
decrement here. -/
def remove_phase_equal (hash_table : MonoConcGHashTable)
    (equal : Ptr → Ptr → Bool) (key : Ptr) (fuel : Nat) : RemoveResult :=
  let table := hash_table.table
  let table_mask := table.table_size - 1
  let hashv := mix_hash (hash_table.hash_func key)
  match scanLoop (remove_probe_step (some equal) table key) table_mask
      (homeIdx hashv table_mask) fuel with
  | none => .diverge
  | some .notFound => .ok none hash_table none none
  | some (.removed v t2 ck) =>
    .ok (some v) { hash_table with table := t2 }
      (if hash_table.key_destroy_func then some ck else none)
      (if hash_table.value_destroy_func then some v else none)

/-- `mono_conc_g_hash_table_remove`. -/
def mono_conc_g_hash_table_remove (hash_table : MonoConcGHashTable)
    (key : Ptr) (fuel : Nat) : RemoveResult :=
  if key = 0 then .assertFail
  else
    match hash_table.equal_func with
    | none => remove_phase_direct hash_table key fuel
    | some equal => remove_phase_equal hash_table equal key fuel

/-- `mono_conc_g_hash_table_new_type`.  A null hash function is replaced by
`g_direct_hash`; a type above `MONO_HASH_KEY_VALUE_GC = 3` aborts
(`g_error`), modelled as `none`.  The first generation is created while
`hash->gc_type` still holds its zero initialization. -/
def mono_conc_g_hash_table_new_type (hash_func : Option (Ptr → Nat))
    (key_equal_func : Option (Ptr → Ptr → Bool)) (type : Nat) :
    Option MonoConcGHashTable :=
  let hf := match hash_func with
            | none => g_direct_hash
            | some f => f
  if 3 < type then none
  else some
    { table := conc_table_new 0 INITIAL_SIZE
      hash_func := hf
      equal_func := key_equal_func
      element_count := 0
      overflow_count := load_threshold INITIAL_SIZE
      key_destroy_func := false
      value_destroy_func := false
      gc_type := type }

/-- Whether stored key cell `cur` matches query key `key` under the table's
key-comparison mode: pointer identity without an equality function, the
equality function on non-tombstoned cells otherwise (mirrors the match tests
of the lookup/insert/remove loops). -/
def matchesB (equal_func : Option (Ptr → Ptr → Bool)) (key cur : Ptr) : Bool :=
  match equal_func with
  | none => key == cur
  | some equal => !key_is_tombstone cur && equal key cur

/-- `key` is currently present: some occupied slot matches it. -/
abbrev present (h : MonoConcGHashTable) (k : Ptr) : Prop :=
  ∃ i < h.table.table_size,
    live_at h.table i ∧ matchesB h.equal_func k (slot_key h.table i) = true

/-- The states reachable through the public mutating API, starting from a
constructed table.  Keys are valid references: non-null and distinct from
the (non-pointer) tombstone sentinel; inserted values are non-null (both are
also what the source's `g_assert`s and sentinel encoding presuppose). -/
inductive Reachable : MonoConcGHashTable → Prop where
  | init : ∀ hash_func key_equal_func type h,
      mono_conc_g_hash_table_new_type hash_func key_equal_func type = some h →
      Reachable h
  | insert_step : ∀ h k v fuel r h2, Reachable h →
      k ≠ 0 → k ≠ PTR_TOMBSTONE → v ≠ 0 →
      mono_conc_g_hash_table_insert h k v fuel = .ok r h2 → Reachable h2
  | remove_step : ∀ h k fuel r h2 kd vd, Reachable h →
      k ≠ 0 → k ≠ PTR_TOMBSTONE →
      mono_conc_g_hash_table_remove h k fuel = .ok r h2 kd vd → Reachable h2

/-- Cyclic probe distance from slot `from0` to slot `to0` in a table of
`size` slots (both below `size`). -/
def probeDist (size from0 to0 : Nat) : Nat := (to0 + size - from0) % size

/-- The home slot of stored key `k` under hash function `hf` in a table of
`size` slots, in modular form. -/
def homeSlot (hf : Ptr → Nat) (size : Nat) (k : Ptr) : Nat :=
  mix_hash (hf k) % size

/-- Table-level well-formedness: array lengths, the value-null-iff-free
slot invariant, and the probe-path invariant (every slot on the probe path
from an occupied slot's home to the slot itself has a non-null key cell). -/
structure TWF (hf : Ptr → Nat) (t : conc_table) : Prop where
  keys_len : t.keys.length = t.table_size
  vals_len : t.values.length = t.table_size
  val_iff : ∀ i < t.table_size,
      (slot_value t i = 0 ↔ (slot_key t i = 0 ∨ slot_key t i = PTR_TOMBSTONE))
  probe_inv : ∀ i < t.table_size, live_at t i →
      ∀ e < probeDist t.table_size (homeSlot hf t.table_size (slot_key t i)) i,
        slot_key t ((homeSlot hf t.table_size (slot_key t i) + e) % t.table_size) ≠ 0

/-- Well-formedness of a full table state. -/
structure WF (h : MonoConcGHashTable) : Prop where
  twf : TWF h.hash_func h.table
  size_pow2 : ∃ k ≤ h.table.table_size, h.table.table_size = 2 ^ k
  size_min : 32 ≤ h.table.table_size
  count_ge : (liveCount h.table : Int) ≤ h.element_count
  count_le : h.element_count ≤ h.overflow_count
  overflow_eq : h.overflow_count = load_threshold h.table.table_size

/-- The table returned by `mono_conc_g_hash_table_new_type none none 0`: a
fresh identity-mode table. -/
def table0 : MonoConcGHashTable :=
  { table := conc_table_new 0 INITIAL_SIZE, hash_func := g_direct_hash,
    equal_func := none, element_count := 0,
    overflow_count := load_threshold INITIAL_SIZE,
    key_destroy_func := false, value_destroy_func := false, gc_type := 0 }

/-- A fresh identity-mode table over an arbitrary hash function (the value
of `mono_conc_g_hash_table_new_type (some hf) none 0`). -/
def mkDirectTable (hf : Ptr → Nat) : MonoConcGHashTable :=
  { table := conc_table_new 0 INITIAL_SIZE, hash_func := hf,
    equal_func := none, element_count := 0,
    overflow_count := load_threshold INITIAL_SIZE,
    key_destroy_func := false, value_destroy_func := false, gc_type := 0 }

/-- Pointer equality as an explicit equality callback (for exercising the
equality-function branches). -/
def ptrEqFn : Ptr → Ptr → Bool := fun a b => a == b

/-- A fresh table configured with the explicit equality callback. -/
def table0eq : MonoConcGHashTable :=
  { table := conc_table_new 0 INITIAL_SIZE, hash_func := g_direct_hash,
    equal_func := some ptrEqFn, element_count := 0,
    overflow_count := load_threshold INITIAL_SIZE,
    key_destroy_func := false, value_destroy_func := false, gc_type := 0 }

/-- The state carried in an `ok` insert result (`dflt` otherwise). -/
def insOkState (r : InsertResult) (dflt : MonoConcGHashTable) : MonoConcGHashTable :=
  match r with
  | .ok _ h2 => h2
  | _ => dflt

/-- The value carried in an `ok` insert result. -/
def insOkValue (r : InsertResult) : Option (Option Ptr) :=
  match r with
  | .ok w _ => some w
  | _ => none

/-- The state carried in an `ok` remove result (`dflt` otherwise). -/
def remOkState (r : RemoveResult) (dflt : MonoConcGHashTable) : MonoConcGHashTable :=
  match r with
  | .ok _ h2 _ _ => h2
  | _ => dflt

/-- One successful insert of `(k, 1)` followed by a successful remove of
`k`; `none` if either call fails or diverges. -/
def insertRemovePair (h : MonoConcGHashTable) (k : Ptr) :
    Option MonoConcGHashTable :=
  match mono_conc_g_hash_table_insert h k 1 64 with
  | .ok none h1 =>
    match mono_conc_g_hash_table_remove h1 k 64 with
    | .ok (some _) h2 _ _ => some h2
    | _ => none
  | _ => none

/-- Insert a list of pairs in order, requiring each insert to succeed with
the `NULL` (fresh-key) return; the per-call fuel is four times the current
capacity, which the probe and resize loops never exhaust. -/
def insertAll (ps : List (Ptr × Ptr)) (h : MonoConcGHashTable) :
    Option MonoConcGHashTable :=
  ps.foldlM (fun acc p =>
    match mono_conc_g_hash_table_insert acc p.1 p.2 (4 * acc.table.table_size) with
    | .ok none h2 => some h2
    | _ => none) h

/-- Modelled from the spec (§4.1): the signed two's-complement value of a
32-bit pattern. -/
def toSigned32 (n : Nat) : Int := if n < 2 ^ 31 then (n : Int) else (n : Int) - 2 ^ 32

/-- Modelled from the spec (§4.1): the 32-bit pattern of a signed value
(wraparound). -/
def pat32 (x : Int) : Nat := (x % (2 ^ 32 : Int)).toNat

/-- Modelled from the spec (§4.1): 32-bit wraparound of a signed value. -/
def wrap32 (x : Int) : Int := toSigned32 (pat32 x)

/-- Modelled from the spec (§4.1): the C `>> 16` on a signed 32-bit value
(arithmetic shift, i.e. floor division by `2 ^ 16`). -/
def sar16 (x : Int) : Int := x / 2 ^ 16

/-- Modelled from the spec (§4.1): bitwise XOR of two signed 32-bit
values. -/
def xor32I (x y : Int) : Int := toSigned32 (Nat.xor (pat32 x) (pat32 y))

/-- Modelled from the spec (§4.1): the mixing function
`mix(h) = ((h * 215497) >> 16) XOR (h * 1823231 + h)`, computed in 32-bit
arithmetic with wraparound on signed `int` values. -/
def mix_hash_spec (h : Int) : Int :=
  xor32I (sar16 (wrap32 (h * 215497))) (wrap32 (h * 1823231 + h))

/-- An equality-mode state over the initial capacity with the given key and
value cells and live count (as `mkState32`, but with the explicit equality
callback installed). -/
def mkState32eq (ks vs : List Ptr) (n : Int) : MonoConcGHashTable :=
  { table := { table_size := 32, gc_type := 0, keys := ks, values := vs },
    hash_func := g_direct_hash, equal_func := some ptrEqFn, element_count := n,
    overflow_count := load_threshold INITIAL_SIZE,
    key_destroy_func := false, value_destroy_func := false, gc_type := 0 }

/-- The state after inserting `(5, 7)` into the equality-mode table: the
pair sits at home slot 16. -/
def c1_h1 : MonoConcGHashTable :=
  mkState32eq
    [0, 0, 0, 0, 0, 0, 0, 0, 0, 0, 0, 0, 0, 0, 0, 0, 5, 0, 0, 0, 0, 0, 0, 0, 0, 0, 0, 0, 0, 0, 0, 0]
    [0, 0, 0, 0, 0, 0, 0, 0, 0, 0, 0, 0, 0, 0, 0, 0, 7, 0, 0, 0, 0, 0, 0, 0, 0, 0, 0, 0, 0, 0, 0, 0]
    1

/-- The state after removing key `5` again from `c1_h1`: slot 16 is
tombstoned, no live entry remains, but the count was not decremented. -/
def c1_h2 : MonoConcGHashTable :=
  mkState32eq
    [0, 0, 0, 0, 0, 0, 0, 0, 0, 0, 0, 0, 0, 0, 0, 0, 18446744073709551615, 0, 0, 0, 0, 0, 0, 0, 0, 0, 0, 0, 0, 0, 0, 0]
    [0, 0, 0, 0, 0, 0, 0, 0, 0, 0, 0, 0, 0, 0, 0, 0, 0, 0, 0, 0, 0, 0, 0, 0, 0, 0, 0, 0, 0, 0, 0, 0]
    1

/-- An identity-mode state over the initial capacity with the given key and
value cells and live count (capacity 32, threshold 24, `g_direct_hash`, no
equality function, no destroy callbacks). -/
def mkState32 (ks vs : List Ptr) (n : Int) : MonoConcGHashTable :=
  { table := { table_size := 32, gc_type := 0, keys := ks, values := vs },
    hash_func := g_direct_hash, equal_func := none, element_count := n,
    overflow_count := load_threshold INITIAL_SIZE,
    key_destroy_func := false, value_destroy_func := false, gc_type := 0 }

/-- The identity-mode state whose first `i` slots are tombstones and whose
remaining slots are empty: the state after insert-and-remove pairs on `i`
keys whose mixed home slots are `0, 1, ..., i - 1`. -/
def tombState (i : Nat) : MonoConcGHashTable :=
  mkState32 (List.replicate i PTR_TOMBSTONE ++ List.replicate (32 - i) 0)
    (List.replicate 32 0) 0

/-- The all-tombstone generation: every slot of `tombState 32` is a
tombstone. -/
def tombFullTable : MonoConcGHashTable := tombState 32

/-- Identity-mode trace: insert `(7, 107)` and `(17, 117)` (whose keys share
home slot 23 of the initial generation), then remove `7`, leaving a
tombstone ahead of the slot holding `17` on its probe path. -/
def c5_s3O : Option MonoConcGHashTable :=
  match mono_conc_g_hash_table_insert table0 7 107 64 with
  | .ok _ s1 =>
    match mono_conc_g_hash_table_insert s1 17 117 64 with
    | .ok _ s2 =>
      match mono_conc_g_hash_table_remove s2 7 64 with
      | .ok _ s3 _ _ => some s3
      | _ => none
    | _ => none
  | _ => none

/-- The state reached by the `c5_s3O` trace: key `17` lives at slot 24 and
slot 23 (its home slot) holds a tombstone. -/
def c5_s3 : MonoConcGHashTable :=
  mkState32
    [0, 0, 0, 0, 0, 0, 0, 0, 0, 0, 0, 0, 0, 0, 0, 0, 0, 0, 0, 0, 0, 0, 0, 18446744073709551615, 17, 0, 0, 0, 0, 0, 0, 0]
    [0, 0, 0, 0, 0, 0, 0, 0, 0, 0, 0, 0, 0, 0, 0, 0, 0, 0, 0, 0, 0, 0, 0, 0, 117, 0, 0, 0, 0, 0, 0, 0]
    1

/-- The state after re-inserting the present key `17` into `c5_s3`: the
tombstoned slot 23 was taken, so key `17` now occupies two slots. -/
def c5_s4 : MonoConcGHashTable :=
  mkState32
    [0, 0, 0, 0, 0, 0, 0, 0, 0, 0, 0, 0, 0, 0, 0, 0, 0, 0, 0, 0, 0, 0, 0, 17, 17, 0, 0, 0, 0, 0, 0, 0]
    [0, 0, 0, 0, 0, 0, 0, 0, 0, 0, 0, 0, 0, 0, 0, 0, 0, 0, 0, 0, 0, 0, 0, 999, 117, 0, 0, 0, 0, 0, 0, 0]
    2

/-- States `c5s1` .. `c5s23` and `c5_st`: the successive states of
inserting `(i, i + 100)` for `i = 1..24` into a fresh identity-mode
table (key 17 probes past key 7 at slot 23, key 24 past key 14 at
slot 14). -/
def c5s1 : MonoConcGHashTable :=
  mkState32
    [0, 0, 0, 1, 0, 0, 0, 0, 0, 0, 0, 0, 0, 0, 0, 0, 0, 0, 0, 0, 0, 0, 0, 0, 0, 0, 0, 0, 0, 0, 0, 0]
    [0, 0, 0, 101, 0, 0, 0, 0, 0, 0, 0, 0, 0, 0, 0, 0, 0, 0, 0, 0, 0, 0, 0, 0, 0, 0, 0, 0, 0, 0, 0, 0]
    1

def c5s2 : MonoConcGHashTable :=
  mkState32
    [0, 0, 0, 1, 0, 0, 2, 0, 0, 0, 0, 0, 0, 0, 0, 0, 0, 0, 0, 0, 0, 0, 0, 0, 0, 0, 0, 0, 0, 0, 0, 0]
    [0, 0, 0, 101, 0, 0, 102, 0, 0, 0, 0, 0, 0, 0, 0, 0, 0, 0, 0, 0, 0, 0, 0, 0, 0, 0, 0, 0, 0, 0, 0, 0]
    2

def c5s3 : MonoConcGHashTable :=
  mkState32
    [0, 0, 0, 1, 0, 0, 2, 0, 0, 3, 0, 0, 0, 0, 0, 0, 0, 0, 0, 0, 0, 0, 0, 0, 0, 0, 0, 0, 0, 0, 0, 0]
    [0, 0, 0, 101, 0, 0, 102, 0, 0, 103, 0, 0, 0, 0, 0, 0, 0, 0, 0, 0, 0, 0, 0, 0, 0, 0, 0, 0, 0, 0, 0, 0]
    3

def c5s4 : MonoConcGHashTable :=
  mkState32
    [0, 0, 0, 1, 0, 0, 2, 0, 0, 3, 0, 0, 0, 4, 0, 0, 0, 0, 0, 0, 0, 0, 0, 0, 0, 0, 0, 0, 0, 0, 0, 0]
    [0, 0, 0, 101, 0, 0, 102, 0, 0, 103, 0, 0, 0, 104, 0, 0, 0, 0, 0, 0, 0, 0, 0, 0, 0, 0, 0, 0, 0, 0, 0, 0]
    4

def c5s5 : MonoConcGHashTable :=
  mkState32
    [0, 0, 0, 1, 0, 0, 2, 0, 0, 3, 0, 0, 0, 4, 0, 0, 5, 0, 0, 0, 0, 0, 0, 0, 0, 0, 0, 0, 0, 0, 0, 0]
    [0, 0, 0, 101, 0, 0, 102, 0, 0, 103, 0, 0, 0, 104, 0, 0, 105, 0, 0, 0, 0, 0, 0, 0, 0, 0, 0, 0, 0, 0, 0, 0]
    5

def c5s6 : MonoConcGHashTable :=
  mkState32
    [0, 0, 0, 1, 0, 0, 2, 0, 0, 3, 0, 0, 0, 4, 0, 0, 5, 0, 0, 6, 0, 0, 0, 0, 0, 0, 0, 0, 0, 0, 0, 0]
    [0, 0, 0, 101, 0, 0, 102, 0, 0, 103, 0, 0, 0, 104, 0, 0, 105, 0, 0, 106, 0, 0, 0, 0, 0, 0, 0, 0, 0, 0, 0, 0]
    6

def c5s7 : MonoConcGHashTable :=
  mkState32
    [0, 0, 0, 1, 0, 0, 2, 0, 0, 3, 0, 0, 0, 4, 0, 0, 5, 0, 0, 6, 0, 0, 0, 7, 0, 0, 0, 0, 0, 0, 0, 0]
    [0, 0, 0, 101, 0, 0, 102, 0, 0, 103, 0, 0, 0, 104, 0, 0, 105, 0, 0, 106, 0, 0, 0, 107, 0, 0, 0, 0, 0, 0, 0, 0]
    7

def c5s8 : MonoConcGHashTable :=
  mkState32
    [0, 0, 0, 1, 0, 0, 2, 0, 0, 3, 0, 0, 0, 4, 0, 0, 5, 0, 0, 6, 0, 0, 0, 7, 0, 0, 8, 0, 0, 0, 0, 0]
    [0, 0, 0, 101, 0, 0, 102, 0, 0, 103, 0, 0, 0, 104, 0, 0, 105, 0, 0, 106, 0, 0, 0, 107, 0, 0, 108, 0, 0, 0, 0, 0]
    8

def c5s9 : MonoConcGHashTable :=
  mkState32
    [0, 0, 0, 1, 0, 0, 2, 0, 0, 3, 0, 0, 0, 4, 0, 0, 5, 0, 0, 6, 0, 0, 0, 7, 0, 0, 8, 0, 0, 9, 0, 0]
    [0, 0, 0, 101, 0, 0, 102, 0, 0, 103, 0, 0, 0, 104, 0, 0, 105, 0, 0, 106, 0, 0, 0, 107, 0, 0, 108, 0, 0, 109, 0, 0]
    9

def c5s10 : MonoConcGHashTable :=
  mkState32
    [10, 0, 0, 1, 0, 0, 2, 0, 0, 3, 0, 0, 0, 4, 0, 0, 5, 0, 0, 6, 0, 0, 0, 7, 0, 0, 8, 0, 0, 9, 0, 0]
    [110, 0, 0, 101, 0, 0, 102, 0, 0, 103, 0, 0, 0, 104, 0, 0, 105, 0, 0, 106, 0, 0, 0, 107, 0, 0, 108, 0, 0, 109, 0, 0]
    10

def c5s11 : MonoConcGHashTable :=
  mkState32
    [10, 0, 0, 1, 11, 0, 2, 0, 0, 3, 0, 0, 0, 4, 0, 0, 5, 0, 0, 6, 0, 0, 0, 7, 0, 0, 8, 0, 0, 9, 0, 0]
    [110, 0, 0, 101, 111, 0, 102, 0, 0, 103, 0, 0, 0, 104, 0, 0, 105, 0, 0, 106, 0, 0, 0, 107, 0, 0, 108, 0, 0, 109, 0, 0]
    11

def c5s12 : MonoConcGHashTable :=
  mkState32
    [10, 0, 0, 1, 11, 0, 2, 12, 0, 3, 0, 0, 0, 4, 0, 0, 5, 0, 0, 6, 0, 0, 0, 7, 0, 0, 8, 0, 0, 9, 0, 0]
    [110, 0, 0, 101, 111, 0, 102, 112, 0, 103, 0, 0, 0, 104, 0, 0, 105, 0, 0, 106, 0, 0, 0, 107, 0, 0, 108, 0, 0, 109, 0, 0]
    12

def c5s13 : MonoConcGHashTable :=
  mkState32
    [10, 0, 0, 1, 11, 0, 2, 12, 0, 3, 13, 0, 0, 4, 0, 0, 5, 0, 0, 6, 0, 0, 0, 7, 0, 0, 8, 0, 0, 9, 0, 0]
    [110, 0, 0, 101, 111, 0, 102, 112, 0, 103, 113, 0, 0, 104, 0, 0, 105, 0, 0, 106, 0, 0, 0, 107, 0, 0, 108, 0, 0, 109, 0, 0]
    13

def c5s14 : MonoConcGHashTable :=
  mkState32
    [10, 0, 0, 1, 11, 0, 2, 12, 0, 3, 13, 0, 0, 4, 14, 0, 5, 0, 0, 6, 0, 0, 0, 7, 0, 0, 8, 0, 0, 9, 0, 0]
    [110, 0, 0, 101, 111, 0, 102, 112, 0, 103, 113, 0, 0, 104, 114, 0, 105, 0, 0, 106, 0, 0, 0, 107, 0, 0, 108, 0, 0, 109, 0, 0]
    14

def c5s15 : MonoConcGHashTable :=
  mkState32
    [10, 0, 0, 1, 11, 0, 2, 12, 0, 3, 13, 0, 0, 4, 14, 0, 5, 15, 0, 6, 0, 0, 0, 7, 0, 0, 8, 0, 0, 9, 0, 0]
    [110, 0, 0, 101, 111, 0, 102, 112, 0, 103, 113, 0, 0, 104, 114, 0, 105, 115, 0, 106, 0, 0, 0, 107, 0, 0, 108, 0, 0, 109, 0, 0]
    15

def c5s16 : MonoConcGHashTable :=
  mkState32
    [10, 0, 0, 1, 11, 0, 2, 12, 0, 3, 13, 0, 0, 4, 14, 0, 5, 15, 0, 6, 16, 0, 0, 7, 0, 0, 8, 0, 0, 9, 0, 0]
    [110, 0, 0, 101, 111, 0, 102, 112, 0, 103, 113, 0, 0, 104, 114, 0, 105, 115, 0, 106, 116, 0, 0, 107, 0, 0, 108, 0, 0, 109, 0, 0]
    16

def c5s17 : MonoConcGHashTable :=
  mkState32
    [10, 0, 0, 1, 11, 0, 2, 12, 0, 3, 13, 0, 0, 4, 14, 0, 5, 15, 0, 6, 16, 0, 0, 7, 17, 0, 8, 0, 0, 9, 0, 0]
    [110, 0, 0, 101, 111, 0, 102, 112, 0, 103, 113, 0, 0, 104, 114, 0, 105, 115, 0, 106, 116, 0, 0, 107, 117, 0, 108, 0, 0, 109, 0, 0]
    17

def c5s18 : MonoConcGHashTable :=
  mkState32
    [10, 0, 0, 1, 11, 0, 2, 12, 0, 3, 13, 0, 0, 4, 14, 0, 5, 15, 0, 6, 16, 0, 0, 7, 17, 0, 8, 18, 0, 9, 0, 0]
    [110, 0, 0, 101, 111, 0, 102, 112, 0, 103, 113, 0, 0, 104, 114, 0, 105, 115, 0, 106, 116, 0, 0, 107, 117, 0, 108, 118, 0, 109, 0, 0]
    18

def c5s19 : MonoConcGHashTable :=
  mkState32
    [10, 0, 0, 1, 11, 0, 2, 12, 0, 3, 13, 0, 0, 4, 14, 0, 5, 15, 0, 6, 16, 0, 0, 7, 17, 0, 8, 18, 0, 9, 19, 0]
    [110, 0, 0, 101, 111, 0, 102, 112, 0, 103, 113, 0, 0, 104, 114, 0, 105, 115, 0, 106, 116, 0, 0, 107, 117, 0, 108, 118, 0, 109, 119, 0]
    19

def c5s20 : MonoConcGHashTable :=
  mkState32
    [10, 20, 0, 1, 11, 0, 2, 12, 0, 3, 13, 0, 0, 4, 14, 0, 5, 15, 0, 6, 16, 0, 0, 7, 17, 0, 8, 18, 0, 9, 19, 0]
    [110, 120, 0, 101, 111, 0, 102, 112, 0, 103, 113, 0, 0, 104, 114, 0, 105, 115, 0, 106, 116, 0, 0, 107, 117, 0, 108, 118, 0, 109, 119, 0]
    20

def c5s21 : MonoConcGHashTable :=
  mkState32
    [10, 20, 0, 1, 11, 21, 2, 12, 0, 3, 13, 0, 0, 4, 14, 0, 5, 15, 0, 6, 16, 0, 0, 7, 17, 0, 8, 18, 0, 9, 19, 0]
    [110, 120, 0, 101, 111, 121, 102, 112, 0, 103, 113, 0, 0, 104, 114, 0, 105, 115, 0, 106, 116, 0, 0, 107, 117, 0, 108, 118, 0, 109, 119, 0]
    21

def c5s22 : MonoConcGHashTable :=
  mkState32
    [10, 20, 0, 1, 11, 21, 2, 12, 22, 3, 13, 0, 0, 4, 14, 0, 5, 15, 0, 6, 16, 0, 0, 7, 17, 0, 8, 18, 0, 9, 19, 0]
    [110, 120, 0, 101, 111, 121, 102, 112, 122, 103, 113, 0, 0, 104, 114, 0, 105, 115, 0, 106, 116, 0, 0, 107, 117, 0, 108, 118, 0, 109, 119, 0]
    22

def c5s23 : MonoConcGHashTable :=
  mkState32
    [10, 20, 0, 1, 11, 21, 2, 12, 22, 3, 13, 23, 0, 4, 14, 0, 5, 15, 0, 6, 16, 0, 0, 7, 17, 0, 8, 18, 0, 9, 19, 0]
    [110, 120, 0, 101, 111, 121, 102, 112, 122, 103, 113, 123, 0, 104, 114, 0, 105, 115, 0, 106, 116, 0, 0, 107, 117, 0, 108, 118, 0, 109, 119, 0]
    23

/-- The at-threshold state: keys `1..24` with values `101..124`
(live count 24 = the resize threshold of capacity 32). -/
def c5_st : MonoConcGHashTable :=
  mkState32
    [10, 20, 0, 1, 11, 21, 2, 12, 22, 3, 13, 23, 0, 4, 14, 24, 5, 15, 0, 6, 16, 0, 0, 7, 17, 0, 8, 18, 0, 9, 19, 0]
    [110, 120, 0, 101, 111, 121, 102, 112, 122, 103, 113, 123, 0, 104, 114, 124, 105, 115, 0, 106, 116, 0, 0, 107, 117, 0, 108, 118, 0, 109, 119, 0]
    24

/-- The state after inserting the already-present key `1` into the
at-threshold state `c5_st`: the generation has been rebuilt at capacity 64
(threshold 48) although key `1` was present. -/
def c5_st2 : MonoConcGHashTable :=
  { table :=
      { table_size := 64, gc_type := 0,
        keys := [0, 20, 0, 1, 0, 21, 2, 0, 22, 3, 0, 23, 0, 4, 24, 0, 5, 0, 0, 6, 0, 0, 0, 7, 0, 0, 8, 0, 0, 9, 0, 0, 10, 0, 0, 0, 11, 0, 0, 12, 0, 0, 13, 0, 0, 0, 14, 0, 0, 15, 0, 0, 16, 0, 0, 17, 0, 0, 0, 18, 0, 0, 19, 0],
        values := [0, 120, 0, 101, 0, 121, 102, 0, 122, 103, 0, 123, 0, 104, 124, 0, 105, 0, 0, 106, 0, 0, 0, 107, 0, 0, 108, 0, 0, 109, 0, 0, 110, 0, 0, 0, 111, 0, 0, 112, 0, 0, 113, 0, 0, 0, 114, 0, 0, 115, 0, 0, 116, 0, 0, 117, 0, 0, 0, 118, 0, 0, 119, 0] },
    hash_func := g_direct_hash, equal_func := none, element_count := 24,
    overflow_count := load_threshold 64,
    key_destroy_func := false, value_destroy_func := false, gc_type := 0 }

/-- The state after inserting `(5, 7)` into a fresh identity-mode table:
the pair sits at home slot 16. -/
def c5w_s1 : MonoConcGHashTable :=
  mkState32
    [0, 0, 0, 0, 0, 0, 0, 0, 0, 0, 0, 0, 0, 0, 0, 0, 5, 0, 0, 0, 0, 0, 0, 0, 0, 0, 0, 0, 0, 0, 0, 0]
    [0, 0, 0, 0, 0, 0, 0, 0, 0, 0, 0, 0, 0, 0, 0, 0, 7, 0, 0, 0, 0, 0, 0, 0, 0, 0, 0, 0, 0, 0, 0, 0]
    1

/-! ### Elementary facts about slots, masks and probe indices -/

theorem pow2_pos {C : Nat} (hC : ∃ k ≤ C, C = 2 ^ k) : 0 < C := by
  obtain ⟨k, -, rfl⟩ := hC
  exact Nat.pos_pow_of_pos k (by omega)

theorem homeIdx_eq_mod (m : Nat) {C : Nat} (hC : ∃ k ≤ C, C = 2 ^ k) :
    homeIdx m (C - 1) = m % C := by
  obtain ⟨k, -, rfl⟩ := hC
  exact Nat.and_pow_two_sub_one_eq_mod m k

theorem nextIdx_eq_mod (i : Nat) {C : Nat} (hC : ∃ k ≤ C, C = 2 ^ k) :
    nextIdx i (C - 1) = (i + 1) % C := by
  obtain ⟨k, -, rfl⟩ := hC
  exact Nat.and_pow_two_sub_one_eq_mod (i + 1) k

theorem probeDist_lt {C from0 : Nat} (hC : 0 < C) (to0 : Nat) :
    probeDist C from0 to0 < C := Nat.mod_lt _ hC

theorem add_probeDist {C from0 to0 : Nat} (hf : from0 < C) (ht : to0 < C) :
    (from0 + probeDist C from0 to0) % C = to0 := by
  rcases le_or_lt from0 to0 with hle | hlt
  · have h1 : to0 + C - from0 = (to0 - from0) + C := by omega
    rw [probeDist, h1, Nat.add_mod_right,
      Nat.mod_eq_of_lt (show to0 - from0 < C by omega),
      show from0 + (to0 - from0) = to0 by omega, Nat.mod_eq_of_lt ht]
  · have h1 : to0 + C - from0 < C := by omega
    rw [probeDist, Nat.mod_eq_of_lt h1,
      show from0 + (to0 + C - from0) = to0 + C by omega, Nat.add_mod_right,
      Nat.mod_eq_of_lt ht]

theorem probe_idx_inj {C start e d : Nat} (he : e < C) (hd : d < C)
    (h : (start + e) % C = (start + d) % C) : e = d := by
  have h2 : e ≡ d [MOD C] := Nat.ModEq.add_left_cancel' start h
  have h3 : e % C = d % C := h2
  rwa [Nat.mod_eq_of_lt he, Nat.mod_eq_of_lt hd] at h3

theorem slot_key_set_value (t : conc_table) (i : Nat) (v : Ptr) (j : Nat) :
    slot_key (set_value t i v) j = slot_key t j := rfl

theorem slot_value_set_key (t : conc_table) (i : Nat) (k : Ptr) (j : Nat) :
    slot_value (set_key t i k) j = slot_value t j := rfl

theorem slot_key_set_key_self {t : conc_table} {i : Nat} (k : Ptr)
    (h : i < t.keys.length) : slot_key (set_key t i k) i = k := by
  simp [slot_key, set_key, List.getD_eq_getElem?_getD, List.getElem?_set_self h]

theorem slot_key_set_key_ne {t : conc_table} {i j : Nat} (k : Ptr) (h : i ≠ j) :
    slot_key (set_key t i k) j = slot_key t j := by
  simp [slot_key, set_key, List.getD_eq_getElem?_getD, List.getElem?_set_ne h]

theorem slot_value_set_value_self {t : conc_table} {i : Nat} (v : Ptr)
    (h : i < t.values.length) : slot_value (set_value t i v) i = v := by
  simp [slot_value, set_value, List.getD_eq_getElem?_getD, List.getElem?_set_self h]

theorem slot_value_set_value_ne {t : conc_table} {i j : Nat} (v : Ptr) (h : i ≠ j) :
    slot_value (set_value t i v) j = slot_value t j := by
  simp [slot_value, set_value, List.getD_eq_getElem?_getD, List.getElem?_set_ne h]

theorem table_size_set_key (t : conc_table) (i : Nat) (k : Ptr) :
    (set_key t i k).table_size = t.table_size := rfl

theorem table_size_set_value (t : conc_table) (i : Nat) (v : Ptr) :
    (set_value t i v).table_size = t.table_size := rfl

theorem keys_length_set_key (t : conc_table) (i : Nat) (k : Ptr) :
    (set_key t i k).keys.length = t.keys.length := List.length_set ..

theorem values_length_set_value (t : conc_table) (i : Nat) (v : Ptr) :
    (set_value t i v).values.length = t.values.length := List.length_set ..

/-! ### The probe loop: exactness lemmas -/

theorem scanLoop_first_hit {β : Type} (f : Nat → Option β) {C : Nat}
    (hC : ∃ k ≤ C, C = 2 ^ k) :
    ∀ (d start fuel : Nat) (b : β), start < C → d < fuel →
      (∀ e < d, f ((start + e) % C) = none) →
      f ((start + d) % C) = some b →
      scanLoop f (C - 1) start fuel = some b := by
  intro d
  induction d with
  | zero =>
    intro start fuel b hs hd _ hhit
    match fuel, hd with
    | fuel + 1, _ =>
      rw [Nat.add_zero, Nat.mod_eq_of_lt hs] at hhit
      simp [scanLoop, hhit]
  | succ d ih =>
    intro start fuel b hs hd hnone hhit
    match fuel, hd with
    | fuel + 1, hd =>
      have h0 : f start = none := by
        have h := hnone 0 (Nat.succ_pos d)
        rwa [Nat.add_zero, Nat.mod_eq_of_lt hs] at h
      simp only [scanLoop, h0, nextIdx_eq_mod _ hC]
      apply ih ((start + 1) % C) fuel b (Nat.mod_lt _ (pow2_pos hC)) (by omega)
      · intro e he
        rw [Nat.mod_add_mod]
        have h := hnone (e + 1) (by omega)
        rwa [show start + (e + 1) = start + 1 + e by omega] at h
      · rw [Nat.mod_add_mod, show start + 1 + d = start + (d + 1) by omega]
        exact hhit

theorem scanLoop_none {β : Type} (f : Nat → Option β) {C : Nat}
    (hC : ∃ k ≤ C, C = 2 ^ k) :
    ∀ (fuel start : Nat), start < C → (∀ i < C, f i = none) →
      scanLoop f (C - 1) start fuel = none := by
  intro fuel
  induction fuel with
  | zero => intro start _ _; rfl
  | succ fuel ih =>
    intro start hs hall
    simp only [scanLoop, hall start hs, nextIdx_eq_mod _ hC]
    exact ih _ (Nat.mod_lt _ (pow2_pos hC)) hall

theorem scanLoop_eq_some {β : Type} (f : Nat → Option β) {C : Nat}
    (hC : ∃ k ≤ C, C = 2 ^ k) :
    ∀ (fuel start : Nat) (b : β), start < C →
      scanLoop f (C - 1) start fuel = some b →
      ∃ d < fuel, f ((start + d) % C) = some b ∧
        ∀ e < d, f ((start + e) % C) = none := by
  intro fuel
  induction fuel with
  | zero => intro start b _ h; simp [scanLoop] at h
  | succ fuel ih =>
    intro start b hs h
    cases hcase : f start with
    | some b2 =>
      refine ⟨0, by omega, ?_, by omega⟩
      rw [Nat.add_zero, Nat.mod_eq_of_lt hs, hcase]
      simp only [scanLoop, hcase] at h
      exact h
    | none =>
      simp only [scanLoop, hcase, nextIdx_eq_mod _ hC] at h
      obtain ⟨d, hd, hhit, hnone⟩ := ih ((start + 1) % C) b (Nat.mod_lt _ (pow2_pos hC)) h
      refine ⟨d + 1, by omega, ?_, ?_⟩
      · rwa [Nat.mod_add_mod, show start + 1 + d = start + (d + 1) by omega] at hhit
      · intro e he
        cases e with
        | zero => rwa [Nat.add_zero, Nat.mod_eq_of_lt hs]
        | succ e =>
          have h := hnone e (by omega)
          rwa [Nat.mod_add_mod, show start + 1 + e = start + (e + 1) by omega] at h

/-- The least probe offset at which a (decidable) slot condition holds, if
it holds somewhere in the table. -/
theorem exists_least_probe {P : Nat → Prop} [DecidablePred P] {C start : Nat}
    (hC : 0 < C) (hs : start < C) (hex : ∃ i < C, P i) :
    ∃ d < C, P ((start + d) % C) ∧ ∀ e < d, ¬ P ((start + e) % C) := by
  obtain ⟨i, hi, hPi⟩ := hex
  have hd0 : P ((start + probeDist C start i) % C) := by
    rwa [add_probeDist hs hi]
  have hex2 : ∃ d, P ((start + d) % C) := ⟨_, hd0⟩
  refine ⟨Nat.find hex2, ?_, Nat.find_spec hex2, fun e he => Nat.find_min hex2 he⟩
  exact Nat.lt_of_le_of_lt (Nat.find_min' hex2 hd0) (probeDist_lt hC i)

/-! ### Pointwise update of a filterMap over distinct indices -/

theorem filterMap_set_perm {β : Type} (g g2 : Nat → Option β) (b : β) :
    ∀ (l : List Nat) (i : Nat), i ∈ l → l.Nodup →
      g i = none → g2 i = some b → (∀ j ∈ l, j ≠ i → g2 j = g j) →
      (l.filterMap g2).Perm (b :: l.filterMap g) := by
  intro l
  induction l with
  | nil => intro i h; simp at h
  | cons j rest ih =>
    intro i hmem hnd hgi hg2i hagree
    rcases List.mem_cons.mp hmem with rfl | hmem2
    · have hnotin : i ∉ rest := (List.nodup_cons.mp hnd).1
      have hrest : rest.filterMap g2 = rest.filterMap g :=
        List.filterMap_congr
          (fun x hx => hagree x (List.mem_cons_of_mem _ hx) (fun hxi => hnotin (hxi ▸ hx)))
      simp [List.filterMap_cons, hg2i, hgi, hrest]
    · have hnd2 := (List.nodup_cons.mp hnd).2
      have hji : j ≠ i := fun hji => (List.nodup_cons.mp hnd).1 (hji ▸ hmem2)
      have hg2j : g2 j = g j := hagree j (List.mem_cons_self ..) hji
      have ihp := ih i hmem2 hnd2 hgi hg2i (fun x hx => hagree x (List.mem_cons_of_mem _ hx))
      cases hgj : g j with
      | none => simpa [List.filterMap_cons, hg2j, hgj] using ihp
      | some c =>
        simp only [List.filterMap_cons, hg2j, hgj]
        exact (ihp.cons c).trans (List.Perm.swap b c _)

/-! ### Membership in the live-entry list -/

theorem mem_liveEntries {t : conc_table} {k v : Ptr} :
    (k, v) ∈ liveEntries t ↔
      ∃ i < t.table_size,
        slot_key t i = k ∧ slot_value t i = v ∧ k ≠ 0 ∧ k ≠ PTR_TOMBSTONE := by
  unfold liveEntries
  simp only [List.mem_filterMap, List.mem_range]
  constructor
  · rintro ⟨i, hi, hsome⟩
    by_cases h : slot_key t i ≠ 0 ∧ slot_key t i ≠ PTR_TOMBSTONE
    · rw [if_pos h] at hsome
      obtain ⟨hk, hv⟩ := Prod.mk.injEq .. ▸ Option.some.inj hsome
      exact ⟨i, hi, hk, hv, hk ▸ h.1, hk ▸ h.2⟩
    · rw [if_neg h] at hsome
      cases hsome
  · rintro ⟨i, hi, hk, hv, h0, ht⟩
    refine ⟨i, hi, ?_⟩
    rw [if_pos ⟨hk.symm ▸ h0, hk.symm ▸ ht⟩, hk, hv]

/-! ### Bridges between the Bool-level tests of the code and Prop-level facts -/

theorem tombstone_ne_zero : PTR_TOMBSTONE ≠ 0 := by decide

theorem key_is_tombstone_iff {p : Ptr} :
    key_is_tombstone p = true ↔ p = PTR_TOMBSTONE := by
  simp [key_is_tombstone]

theorem key_is_tombstone_false_iff {p : Ptr} :
    key_is_tombstone p = false ↔ p ≠ PTR_TOMBSTONE := by
  simp [key_is_tombstone]

theorem not_live_iff {c : Ptr} : ¬ live_key c ↔ (c = 0 ∨ c = PTR_TOMBSTONE) := by
  rw [not_and_or, not_ne_iff, not_ne_iff]

theorem matchesB_none_iff {k c : Ptr} : matchesB none k c = true ↔ k = c := by
  simp [matchesB]

theorem matchesB_some_iff {equal : Ptr → Ptr → Bool} {k c : Ptr} :
    matchesB (some equal) k c = true ↔
      (key_is_tombstone c = false ∧ equal k c = true) := by
  simp [matchesB, Bool.and_eq_true, Bool.not_eq_true']

theorem matchesB_tombstone {ef : Option (Ptr → Ptr → Bool)} {k : Ptr}
    (hkT : k ≠ PTR_TOMBSTONE) : matchesB ef k PTR_TOMBSTONE = false := by
  cases ef with
  | none => simpa [matchesB] using hkT
  | some equal => simp [matchesB, key_is_tombstone]

/-! ### Exits of the per-slot probe bodies -/

theorem lookup_step_none {ef : Option (Ptr → Ptr → Bool)} {t : conc_table} {k : Ptr}
    {i : Nat} (hnn : slot_key t i ≠ 0)
    (hm : matchesB ef k (slot_key t i) = false) :
    lookup_probe_step ef t k i = none := by
  cases ef with
  | none =>
    have hne : ¬ k = slot_key t i := by
      intro he
      rw [matchesB_none_iff.mpr he] at hm
      cases hm
    simp [lookup_probe_step, hnn, hne]
  | some equal =>
    have hne : ¬ (key_is_tombstone (slot_key t i) = false ∧
        equal k (slot_key t i) = true) := by
      intro he
      rw [matchesB_some_iff.mpr he] at hm
      cases hm
    simp [lookup_probe_step, hnn, hne]

theorem lookup_step_notFound {ef : Option (Ptr → Ptr → Bool)} {t : conc_table}
    {k : Ptr} {i : Nat} (h0 : slot_key t i = 0) :
    lookup_probe_step ef t k i = some (.ret .notFound) := by
  cases ef <;> simp [lookup_probe_step, h0]

theorem lookup_step_found {ef : Option (Ptr → Ptr → Bool)} {t : conc_table} {k : Ptr}
    {i : Nat} (hnn : slot_key t i ≠ 0)
    (hm : matchesB ef k (slot_key t i) = true) (hv : slot_value t i ≠ 0) :
    lookup_probe_step ef t k i = some (.ret (.found (slot_key t i) (slot_value t i))) := by
  cases ef with
  | none =>
    have he : k = slot_key t i := matchesB_none_iff.mp hm
    simp [lookup_probe_step, hnn, he, hv]
  | some equal =>
    have he := matchesB_some_iff.mp hm
    simp [lookup_probe_step, hnn, he, hv]

theorem insert_step_inserted {ef : Option (Ptr → Ptr → Bool)} {t : conc_table}
    {k v : Ptr} {i : Nat}
    (hfree : slot_key t i = 0 ∨ slot_key t i = PTR_TOMBSTONE) :
    insert_probe_step ef t k v i =
      some (.inserted (set_key (set_value t i v) i k)) := by
  have hfree2 : slot_key t i = 0 ∨ key_is_tombstone (slot_key t i) = true := by
    rcases hfree with h | h
    · exact Or.inl h
    · exact Or.inr (key_is_tombstone_iff.mpr h)
  cases ef <;> simp [insert_probe_step, hfree2]

theorem insert_step_none {ef : Option (Ptr → Ptr → Bool)} {t : conc_table}
    {k v : Ptr} {i : Nat}
    (hnf : ¬ (slot_key t i = 0 ∨ slot_key t i = PTR_TOMBSTONE))
    (hm : matchesB ef k (slot_key t i) = false) :
    insert_probe_step ef t k v i = none := by
  have hnf2 : ¬ (slot_key t i = 0 ∨ key_is_tombstone (slot_key t i) = true) := by
    rw [key_is_tombstone_iff]
    exact hnf
  cases ef with
  | none =>
    have hne : ¬ k = slot_key t i := by
      intro he
      rw [matchesB_none_iff.mpr he] at hm
      cases hm
    simp [insert_probe_step, hnf2, hne]
  | some equal =>
    have hne : ¬ equal k (slot_key t i) = true := by
      intro he
      rw [matchesB_some_iff.mpr
        ⟨key_is_tombstone_false_iff.mpr (fun hT => hnf (Or.inr hT)), he⟩] at hm
      cases hm
    simp [insert_probe_step, hnf2, hne]

theorem insert_step_existing {ef : Option (Ptr → Ptr → Bool)} {t : conc_table}
    {k v : Ptr} {i : Nat}
    (hnf : ¬ (slot_key t i = 0 ∨ slot_key t i = PTR_TOMBSTONE))
    (hm : matchesB ef k (slot_key t i) = true) :
    insert_probe_step ef t k v i = some (.existing (slot_value t i)) := by
  have hnf2 : ¬ (slot_key t i = 0 ∨ key_is_tombstone (slot_key t i) = true) := by
    rw [key_is_tombstone_iff]
    exact hnf
  cases ef with
  | none =>
    have he : k = slot_key t i := matchesB_none_iff.mp hm
    simp [insert_probe_step, hnf2, he]
  | some equal =>
    have he := (matchesB_some_iff.mp hm).2
    simp [insert_probe_step, hnf2, he]

theorem insert_step_inserted_inv {ef : Option (Ptr → Ptr → Bool)} {t : conc_table}
    {k v : Ptr} {i : Nat} {t2 : conc_table}
    (h : insert_probe_step ef t k v i = some (.inserted t2)) :
    (slot_key t i = 0 ∨ slot_key t i = PTR_TOMBSTONE) ∧
      t2 = set_key (set_value t i v) i k := by
  by_cases hfree : slot_key t i = 0 ∨ slot_key t i = PTR_TOMBSTONE
  · rw [insert_step_inserted hfree] at h
    exact ⟨hfree, (InsStep.inserted.inj (Option.some.inj h)).symm⟩
  · cases hmB : matchesB ef k (slot_key t i) with
    | true => rw [insert_step_existing hfree hmB] at h; cases Option.some.inj h
    | false => rw [insert_step_none hfree hmB] at h; cases h

theorem remove_step_none {ef : Option (Ptr → Ptr → Bool)} {t : conc_table} {k : Ptr}
    {i : Nat} (hnn : slot_key t i ≠ 0)
    (hm : matchesB ef k (slot_key t i) = false) :
    remove_probe_step ef t k i = none := by
  cases ef with
  | none =>
    have hne : ¬ k = slot_key t i := by
      intro he
      rw [matchesB_none_iff.mpr he] at hm
      cases hm
    simp [remove_probe_step, hnn, hne]
  | some equal =>
    have hne : ¬ (key_is_tombstone (slot_key t i) = false ∧
        equal k (slot_key t i) = true) := by
      intro he
      rw [matchesB_some_iff.mpr he] at hm
      cases hm
    simp [remove_probe_step, hnn, hne]

theorem remove_step_notFound {ef : Option (Ptr → Ptr → Bool)} {t : conc_table}
    {k : Ptr} {i : Nat} (h0 : slot_key t i = 0) :
    remove_probe_step ef t k i = some .notFound := by
  cases ef <;> simp [remove_probe_step, h0]

theorem remove_step_removed {ef : Option (Ptr → Ptr → Bool)} {t : conc_table}
    {k : Ptr} {i : Nat} (hnn : slot_key t i ≠ 0)
    (hm : matchesB ef k (slot_key t i) = true) :
    remove_probe_step ef t k i =
      some (.removed (slot_value t i) (set_key_to_tombstone (set_value t i 0) i)
        (slot_key t i)) := by
  cases ef with
  | none =>
    have he : k = slot_key t i := matchesB_none_iff.mp hm
    simp [remove_probe_step, hnn, he]
  | some equal =>
    have he := matchesB_some_iff.mp hm
    simp [remove_probe_step, hnn, he]

theorem remove_step_removed_inv {ef : Option (Ptr → Ptr → Bool)} {t : conc_table}
    {k : Ptr} {i : Nat} {v2 : Ptr} {t2 : conc_table} {ck : Ptr}
    (h : remove_probe_step ef t k i = some (.removed v2 t2 ck)) :
    slot_key t i ≠ 0 ∧ matchesB ef k (slot_key t i) = true ∧
      v2 = slot_value t i ∧ ck = slot_key t i ∧
      t2 = set_key_to_tombstone (set_value t i 0) i := by
  by_cases hnn : slot_key t i = 0
  · rw [remove_step_notFound hnn] at h
    cases Option.some.inj h
  · cases hmB : matchesB ef k (slot_key t i) with
    | false => rw [remove_step_none hnn hmB] at h; cases h
    | true =>
      rw [remove_step_removed hnn hmB] at h
      obtain ⟨h1, h2, h3⟩ := RemStep.removed.inj (Option.some.inj h)
      exact ⟨hnn, rfl, h1.symm, h3.symm, h2.symm⟩

/-! ### Effect of the two slot writes on the live-entry list -/

theorem liveEntries_insert_free {t : conc_table} {i : Nat} {k v : Ptr}
    (hkl : t.keys.length = t.table_size) (hvl : t.values.length = t.table_size)
    (hi : i < t.table_size) (hfree : ¬ live_at t i) (hk : live_key k) :
    (liveEntries (set_key (set_value t i v) i k)).Perm ((k, v) :: liveEntries t) := by
  have hks : slot_key (set_key (set_value t i v) i k) i = k :=
    slot_key_set_key_self k (by simpa [set_value] using hkl ▸ hi)
  have hvs : slot_value (set_key (set_value t i v) i k) i = v := by
    rw [slot_value_set_key]
    exact slot_value_set_value_self v (hvl ▸ hi)
  have hagree : ∀ j ∈ List.range t.table_size, j ≠ i →
      (if slot_key (set_key (set_value t i v) i k) j ≠ 0 ∧
          slot_key (set_key (set_value t i v) i k) j ≠ PTR_TOMBSTONE then
        some (slot_key (set_key (set_value t i v) i k) j,
          slot_value (set_key (set_value t i v) i k) j)
      else none) =
      (if slot_key t j ≠ 0 ∧ slot_key t j ≠ PTR_TOMBSTONE then
        some (slot_key t j, slot_value t j)
      else none) := by
    intro j _ hji
    rw [slot_key_set_key_ne k (fun he => hji he.symm), slot_key_set_value,
      slot_value_set_key, slot_value_set_value_ne v (fun he => hji he.symm)]
  exact filterMap_set_perm _ _ (k, v) (List.range t.table_size) i
    (List.mem_range.mpr hi) (List.nodup_range _)
    (if_neg hfree) (by rw [hks, hvs, if_pos hk]) hagree

theorem liveEntries_remove_live {t : conc_table} {i : Nat}
    (hkl : t.keys.length = t.table_size) (_hvl : t.values.length = t.table_size)
    (hi : i < t.table_size) (hlive : live_at t i) :
    (liveEntries t).Perm
      ((slot_key t i, slot_value t i) ::
        liveEntries (set_key_to_tombstone (set_value t i 0) i)) := by
  have hks : slot_key (set_key_to_tombstone (set_value t i 0) i) i = PTR_TOMBSTONE :=
    slot_key_set_key_self _ (by simpa [set_value] using hkl ▸ hi)
  have hagree : ∀ j ∈ List.range t.table_size, j ≠ i →
      (if slot_key t j ≠ 0 ∧ slot_key t j ≠ PTR_TOMBSTONE then
        some (slot_key t j, slot_value t j)
      else none) =
      (if slot_key (set_key_to_tombstone (set_value t i 0) i) j ≠ 0 ∧
          slot_key (set_key_to_tombstone (set_value t i 0) i) j ≠ PTR_TOMBSTONE then
        some (slot_key (set_key_to_tombstone (set_value t i 0) i) j,
          slot_value (set_key_to_tombstone (set_value t i 0) i) j)
      else none) := by
    intro j _ hji
    rw [set_key_to_tombstone, slot_key_set_key_ne _ (fun he => hji he.symm),
      slot_key_set_value, slot_value_set_key,
      slot_value_set_value_ne 0 (fun he => hji he.symm)]
  exact filterMap_set_perm _ _ (slot_key t i, slot_value t i) (List.range t.table_size) i
    (List.mem_range.mpr hi) (List.nodup_range _)
    (if_neg (by rw [hks]; intro hc; exact hc.2 rfl)) (if_pos hlive) hagree

theorem length_filterMap_all_some {α β : Type} (g : α → Option β) :
    ∀ l : List α, (∀ a ∈ l, (g a).isSome) → (l.filterMap g).length = l.length := by
  intro l
  induction l with
  | nil => intro _; rfl
  | cons a rest ih =>
    intro hall
    cases hga : g a with
    | none =>
      have := hall a (List.mem_cons_self ..)
      rw [hga] at this
      cases this
    | some b =>
      simp [List.filterMap_cons, hga, ih (fun x hx => hall x (List.mem_cons_of_mem _ hx))]

theorem exists_free_slot {t : conc_table} (hlt : liveCount t < t.table_size) :
    ∃ i < t.table_size, ¬ live_at t i := by
  by_contra hall
  push_neg at hall
  have hfull : liveCount t = t.table_size := by
    unfold liveCount liveEntries
    rw [length_filterMap_all_some _ _ (fun i hi => ?_), List.length_range]
    rw [if_pos (hall i (List.mem_range.mp hi))]
    rfl
  omega

/-! ### Preservation of the table invariant by the two slot writes -/

theorem TWF_insert_free {hf : Ptr → Nat} {t : conc_table} {i : Nat} {k v : Ptr}
    (htwf : TWF hf t) (hi : i < t.table_size)
    (hfree : ¬ live_at t i) (hk0 : k ≠ 0) (hkT : k ≠ PTR_TOMBSTONE) (hv : v ≠ 0)
    (hpath : ∀ e < probeDist t.table_size (homeSlot hf t.table_size k) i,
        slot_key t ((homeSlot hf t.table_size k + e) % t.table_size) ≠ 0)
    (hCpos : 0 < t.table_size) :
    TWF hf (set_key (set_value t i v) i k) := by
  have hks : slot_key (set_key (set_value t i v) i k) i = k :=
    slot_key_set_key_self k (by simpa [set_value] using htwf.keys_len ▸ hi)
  have hkn : ∀ j, j ≠ i → slot_key (set_key (set_value t i v) i k) j = slot_key t j :=
    fun j hji => by
      rw [slot_key_set_key_ne k (fun he => hji he.symm)]
      rfl
  have hvs : slot_value (set_key (set_value t i v) i k) i = v := by
    rw [slot_value_set_key]
    exact slot_value_set_value_self v (htwf.vals_len ▸ hi)
  have hvn : ∀ j, j ≠ i → slot_value (set_key (set_value t i v) i k) j = slot_value t j :=
    fun j hji => by
      rw [slot_value_set_key, slot_value_set_value_ne v (fun he => hji he.symm)]
  have hsz : (set_key (set_value t i v) i k).table_size = t.table_size := rfl
  have hm_lt : homeSlot hf t.table_size k < t.table_size := Nat.mod_lt _ hCpos
  refine ⟨?_, ?_, ?_, ?_⟩
  · simp [set_key, set_value, List.length_set, htwf.keys_len]
  · simp [set_key, set_value, List.length_set, htwf.vals_len]
  · intro j hj
    rw [hsz] at hj
    by_cases hji : j = i
    · subst hji
      rw [hks, hvs]
      constructor
      · intro h0; exact absurd h0 hv
      · rintro (h | h)
        · exact absurd h hk0
        · exact absurd h hkT
    · rw [hkn j hji, hvn j hji]
      exact htwf.val_iff j hj
  · intro j hj hlive2 e he
    rw [hsz] at hj he ⊢
    by_cases hji : j = i
    · subst hji
      rw [hks] at he ⊢
      have hp_ne : (homeSlot hf t.table_size k + e) % t.table_size ≠ j := by
        intro hpe
        have hieq : (homeSlot hf t.table_size k +
            probeDist t.table_size (homeSlot hf t.table_size k) j) % t.table_size = j :=
          add_probeDist hm_lt hi
        have := probe_idx_inj (C := t.table_size)
          (Nat.lt_trans he (probeDist_lt hCpos j)) (probeDist_lt hCpos j)
          (hpe.trans hieq.symm)
        omega
      rw [hkn _ hp_ne]
      exact hpath e he
    · have hkj := hkn j hji
      rw [hkj] at he ⊢
      replace hlive2 : live_key (slot_key t j) := by
        rw [← hkj]
        exact hlive2
      have hlt := htwf.probe_inv j hj hlive2 e he
      by_cases hp : (homeSlot hf t.table_size (slot_key t j) + e) % t.table_size = i
      · rw [hp, hks]
        exact hk0
      · rw [hkn _ hp]
        exact hlt

theorem TWF_remove {hf : Ptr → Nat} {t : conc_table} {i : Nat}
    (htwf : TWF hf t) (hi : i < t.table_size) :
    TWF hf (set_key_to_tombstone (set_value t i 0) i) := by
  have hks : slot_key (set_key_to_tombstone (set_value t i 0) i) i = PTR_TOMBSTONE :=
    slot_key_set_key_self _ (by simpa [set_value] using htwf.keys_len ▸ hi)
  have hkn : ∀ j, j ≠ i →
      slot_key (set_key_to_tombstone (set_value t i 0) i) j = slot_key t j :=
    fun j hji => by
      rw [set_key_to_tombstone, slot_key_set_key_ne _ (fun he => hji he.symm)]
      rfl
  have hvs : slot_value (set_key_to_tombstone (set_value t i 0) i) i = 0 := by
    rw [set_key_to_tombstone, slot_value_set_key]
    exact slot_value_set_value_self 0 (htwf.vals_len ▸ hi)
  have hvn : ∀ j, j ≠ i →
      slot_value (set_key_to_tombstone (set_value t i 0) i) j = slot_value t j :=
    fun j hji => by
      rw [set_key_to_tombstone, slot_value_set_key,
        slot_value_set_value_ne 0 (fun he => hji he.symm)]
  have hsz : (set_key_to_tombstone (set_value t i 0) i).table_size = t.table_size := rfl
  refine ⟨?_, ?_, ?_, ?_⟩
  · simp [set_key_to_tombstone, set_key, set_value, List.length_set, htwf.keys_len]
  · simp [set_key_to_tombstone, set_key, set_value, List.length_set, htwf.vals_len]
  · intro j hj
    rw [hsz] at hj
    by_cases hji : j = i
    · subst hji
      rw [hks, hvs]
      simp
    · rw [hkn j hji, hvn j hji]
      exact htwf.val_iff j hj
  · intro j hj hlive2 e he
    rw [hsz] at hj he ⊢
    by_cases hji : j = i
    · subst hji
      exact absurd hks hlive2.2
    · have hkj := hkn j hji
      rw [hkj] at he ⊢
      replace hlive2 : live_key (slot_key t j) := by
        rw [← hkj]
        exact hlive2
      have hlt := htwf.probe_inv j hj hlive2 e he
      by_cases hp : (homeSlot hf t.table_size (slot_key t j) + e) % t.table_size = i
      · rw [hp, hks]
        exact tombstone_ne_zero
      · rw [hkn _ hp]
        exact hlt

/-! ### Executing lookup along a characterized probe path -/

theorem lookup_found_spec {h : MonoConcGHashTable} {k : Ptr} {d : Nat}
    (hpow : ∃ j ≤ h.table.table_size, h.table.table_size = 2 ^ j)
    (hpath : ∀ e < d,
      slot_key h.table ((homeSlot h.hash_func h.table.table_size k + e) %
        h.table.table_size) ≠ 0 ∧
      matchesB h.equal_func k (slot_key h.table
        ((homeSlot h.hash_func h.table.table_size k + e) % h.table.table_size)) = false)
    (hnn : slot_key h.table ((homeSlot h.hash_func h.table.table_size k + d) %
        h.table.table_size) ≠ 0)
    (hmt : matchesB h.equal_func k (slot_key h.table
        ((homeSlot h.hash_func h.table.table_size k + d) % h.table.table_size)) = true)
    (hv : slot_value h.table ((homeSlot h.hash_func h.table.table_size k + d) %
        h.table.table_size) ≠ 0) :
    mono_conc_g_hash_table_lookup_extended h k (d + 1) =
      some (.found
        (slot_key h.table ((homeSlot h.hash_func h.table.table_size k + d) %
          h.table.table_size))
        (slot_value h.table ((homeSlot h.hash_func h.table.table_size k + d) %
          h.table.table_size))) := by
  have hCpos : 0 < h.table.table_size := pow2_pos hpow
  have hstart : homeSlot h.hash_func h.table.table_size k < h.table.table_size :=
    Nat.mod_lt _ hCpos
  have hscan : scanLoop (lookup_probe_step h.equal_func h.table k)
      (h.table.table_size - 1) (homeSlot h.hash_func h.table.table_size k) (d + 1) =
      some (.ret (.found
        (slot_key h.table ((homeSlot h.hash_func h.table.table_size k + d) %
          h.table.table_size))
        (slot_value h.table ((homeSlot h.hash_func h.table.table_size k + d) %
          h.table.table_size)))) :=
    scanLoop_first_hit _ hpow d _ (d + 1) _ hstart (Nat.lt_succ_self d)
      (fun e he => lookup_step_none (hpath e he).1 (hpath e he).2)
      (lookup_step_found hnn hmt hv)
  simp only [mono_conc_g_hash_table_lookup_extended, homeIdx_eq_mod _ hpow]
  rw [show mix_hash (h.hash_func k) % h.table.table_size =
    homeSlot h.hash_func h.table.table_size k from rfl, hscan]

theorem lookup_notfound_spec {h : MonoConcGHashTable} {k : Ptr} {d : Nat}
    (hpow : ∃ j ≤ h.table.table_size, h.table.table_size = 2 ^ j)
    (hpath : ∀ e < d,
      slot_key h.table ((homeSlot h.hash_func h.table.table_size k + e) %
        h.table.table_size) ≠ 0 ∧
      matchesB h.equal_func k (slot_key h.table
        ((homeSlot h.hash_func h.table.table_size k + e) % h.table.table_size)) = false)
    (h0 : slot_key h.table ((homeSlot h.hash_func h.table.table_size k + d) %
        h.table.table_size) = 0) :
    mono_conc_g_hash_table_lookup_extended h k (d + 1) = some .notFound := by
  have hCpos : 0 < h.table.table_size := pow2_pos hpow
  have hstart : homeSlot h.hash_func h.table.table_size k < h.table.table_size :=
    Nat.mod_lt _ hCpos
  have hscan : scanLoop (lookup_probe_step h.equal_func h.table k)
      (h.table.table_size - 1) (homeSlot h.hash_func h.table.table_size k) (d + 1) =
      some (.ret .notFound) :=
    scanLoop_first_hit _ hpow d _ (d + 1) _ hstart (Nat.lt_succ_self d)
      (fun e he => lookup_step_none (hpath e he).1 (hpath e he).2)
      (lookup_step_notFound h0)
  simp only [mono_conc_g_hash_table_lookup_extended, homeIdx_eq_mod _ hpow]
  rw [show mix_hash (h.hash_func k) % h.table.table_size =
    homeSlot h.hash_func h.table.table_size k from rfl, hscan]

/-! ### Executing insert -/

theorem insert_step_none_inv {ef : Option (Ptr → Ptr → Bool)} {t : conc_table}
    {k v : Ptr} {i : Nat} (h : insert_probe_step ef t k v i = none) :
    ¬ (slot_key t i = 0 ∨ slot_key t i = PTR_TOMBSTONE) := by
  intro hfree
  rw [insert_step_inserted hfree] at h
  cases h

/-- On a well-formed table with no occupied slot matching `k`, the insert
probe loop lands on the first empty-or-tombstone slot of `k`'s probe
sequence and writes the pair there. -/
theorem insert_scan_fresh {h1 : MonoConcGHashTable} {k v : Ptr} {fuel : Nat}
    (hWF : WF h1)
    (hnm : ∀ i < h1.table.table_size, live_at h1.table i →
        matchesB h1.equal_func k (slot_key h1.table i) = false)
    (hfuel : h1.table.table_size ≤ fuel) :
    ∃ d < h1.table.table_size,
      (∀ e < d,
        slot_key h1.table ((homeSlot h1.hash_func h1.table.table_size k + e) %
          h1.table.table_size) ≠ 0 ∧
        matchesB h1.equal_func k (slot_key h1.table
          ((homeSlot h1.hash_func h1.table.table_size k + e) %
            h1.table.table_size)) = false) ∧
      ¬ live_at h1.table ((homeSlot h1.hash_func h1.table.table_size k + d) %
        h1.table.table_size) ∧
      scanLoop (insert_probe_step h1.equal_func h1.table k v)
        (h1.table.table_size - 1) (homeSlot h1.hash_func h1.table.table_size k) fuel =
      some (.inserted (set_key (set_value h1.table
        ((homeSlot h1.hash_func h1.table.table_size k + d) % h1.table.table_size) v)
        ((homeSlot h1.hash_func h1.table.table_size k + d) % h1.table.table_size) k)) := by
  have hCpos : 0 < h1.table.table_size := pow2_pos hWF.size_pow2
  have hm_lt : homeSlot h1.hash_func h1.table.table_size k < h1.table.table_size :=
    Nat.mod_lt _ hCpos
  have hlive_lt : liveCount h1.table < h1.table.table_size := by
    have h1le : (liveCount h1.table : Int) ≤ h1.overflow_count :=
      le_trans hWF.count_ge hWF.count_le
    rw [hWF.overflow_eq, load_threshold] at h1le
    have h2le : liveCount h1.table ≤ 3 * h1.table.table_size / 4 := by
      exact_mod_cast h1le
    omega
  obtain ⟨d, hdC, hPd, hPmin⟩ :=
    exists_least_probe (P := fun i => ¬ live_at h1.table i) hCpos hm_lt
      (exists_free_slot hlive_lt)
  have hpath : ∀ e < d,
      slot_key h1.table ((homeSlot h1.hash_func h1.table.table_size k + e) %
        h1.table.table_size) ≠ 0 ∧
      matchesB h1.equal_func k (slot_key h1.table
        ((homeSlot h1.hash_func h1.table.table_size k + e) %
          h1.table.table_size)) = false := by
    intro e he
    have hlive : live_at h1.table ((homeSlot h1.hash_func h1.table.table_size k + e) %
        h1.table.table_size) := not_not.mp (hPmin e he)
    exact ⟨hlive.1, hnm _ (Nat.mod_lt _ hCpos) hlive⟩
  refine ⟨d, hdC, hpath, hPd, ?_⟩
  apply scanLoop_first_hit _ hWF.size_pow2 d _ fuel _ hm_lt (Nat.lt_of_lt_of_le hdC hfuel)
  · intro e he
    apply insert_step_none
    · intro hfree
      exact (hPmin e he) (not_live_iff.mpr hfree)
    · exact (hpath e he).2
  · exact insert_step_inserted (not_live_iff.mp hPd)

/-- Insert on a below-threshold table whose probe sequence reaches a
matching occupied slot before any empty or tombstone slot: the existing
value is returned and the state is exactly unchanged. -/
theorem insert_spec_existing {h : MonoConcGHashTable} {k v1 : Ptr} {fuel d : Nat}
    (hpow : ∃ j ≤ h.table.table_size, h.table.table_size = 2 ^ j)
    (hk0 : k ≠ 0) (hv : v1 ≠ 0)
    (hno : h.element_count < h.overflow_count)
    (hfuel : d < fuel)
    (hpath : ∀ e < d,
      ¬ (slot_key h.table ((homeSlot h.hash_func h.table.table_size k + e) %
          h.table.table_size) = 0 ∨
        slot_key h.table ((homeSlot h.hash_func h.table.table_size k + e) %
          h.table.table_size) = PTR_TOMBSTONE) ∧
      matchesB h.equal_func k (slot_key h.table
        ((homeSlot h.hash_func h.table.table_size k + e) % h.table.table_size)) = false)
    (hnf : ¬ (slot_key h.table ((homeSlot h.hash_func h.table.table_size k + d) %
        h.table.table_size) = 0 ∨
      slot_key h.table ((homeSlot h.hash_func h.table.table_size k + d) %
        h.table.table_size) = PTR_TOMBSTONE))
    (hmt : matchesB h.equal_func k (slot_key h.table
        ((homeSlot h.hash_func h.table.table_size k + d) % h.table.table_size)) = true) :
    mono_conc_g_hash_table_insert h k v1 fuel =
      .ok (some (slot_value h.table
        ((homeSlot h.hash_func h.table.table_size k + d) % h.table.table_size))) h := by
  have hCpos : 0 < h.table.table_size := pow2_pos hpow
  have hm_lt : homeSlot h.hash_func h.table.table_size k < h.table.table_size :=
    Nat.mod_lt _ hCpos
  have hscan : scanLoop (insert_probe_step h.equal_func h.table k v1)
      (h.table.table_size - 1) (homeSlot h.hash_func h.table.table_size k) fuel =
      some (.existing (slot_value h.table
        ((homeSlot h.hash_func h.table.table_size k + d) % h.table.table_size))) :=
    scanLoop_first_hit _ hpow d _ fuel _ hm_lt hfuel
      (fun e he => insert_step_none (hpath e he).1 (hpath e he).2)
      (insert_step_existing hnf hmt)
  simp only [mono_conc_g_hash_table_insert, insert_probe_phase, if_neg hk0, if_neg hv,
    if_neg (not_le.mpr hno), homeIdx_eq_mod _ hpow]
  rw [show mix_hash (h.hash_func k) % h.table.table_size =
    homeSlot h.hash_func h.table.table_size k from rfl, hscan]

/-! ### The resize engine -/

/-- A generation without tombstoned slots (such as a freshly rebuilt one). -/
abbrev noTomb (t : conc_table) : Prop :=
  ∀ i < t.table_size, slot_key t i ≠ PTR_TOMBSTONE

/-- The slot condition under which the resize walk reinserts an entry. -/
def livePairB (p : Ptr × Ptr) : Bool := decide (p.1 ≠ 0 ∧ p.1 ≠ PTR_TOMBSTONE)

theorem probeDist_le_of_probe {C hm e : Nat} (hCpos : 0 < C) (hm_lt : hm < C) :
    probeDist C hm ((hm + e) % C) ≤ e := by
  have hlt : (hm + e) % C < C := Nat.mod_lt _ hCpos
  have heq : (hm + probeDist C hm ((hm + e) % C)) % C = (hm + e) % C :=
    add_probeDist hm_lt hlt
  have h2 : probeDist C hm ((hm + e) % C) ≡ e [MOD C] :=
    Nat.ModEq.add_left_cancel' hm heq
  have h3 : probeDist C hm ((hm + e) % C) % C = e % C := h2
  rw [Nat.mod_eq_of_lt (probeDist_lt hCpos _)] at h3
  exact h3 ▸ Nat.mod_le e C

theorem insert_one_local_inv {t : conc_table} {hf : Ptr → Nat} {k v : Ptr}
    {fuel : Nat} {t2 : conc_table}
    (hpow : ∃ j ≤ t.table_size, t.table_size = 2 ^ j)
    (hres : insert_one_local t hf k v fuel = some t2) :
    ∃ s < t.table_size, slot_key t s = 0 ∧
      (∀ e < probeDist t.table_size (homeSlot hf t.table_size k) s,
        slot_key t ((homeSlot hf t.table_size k + e) % t.table_size) ≠ 0) ∧
      t2 = set_key (set_value t s v) s k := by
  have hCpos : 0 < t.table_size := pow2_pos hpow
  have hm_lt : homeSlot hf t.table_size k < t.table_size := Nat.mod_lt _ hCpos
  unfold insert_one_local at hres
  rw [homeIdx_eq_mod _ hpow] at hres
  obtain ⟨d0, -, hhit, hmin⟩ := scanLoop_eq_some _ hpow fuel _ _ hm_lt hres
  by_cases h0 : slot_key t ((homeSlot hf t.table_size k + d0) % t.table_size) = 0
  · rw [if_pos h0] at hhit
    refine ⟨(homeSlot hf t.table_size k + d0) % t.table_size, Nat.mod_lt _ hCpos, h0,
      ?_, ?_⟩
    · intro e he
      have hle := probeDist_le_of_probe (e := d0) hCpos hm_lt
      have he0 := hmin e (Nat.lt_of_lt_of_le he hle)
      intro hc
      rw [if_pos hc] at he0
      cases he0
    · have := Option.some.inj hhit
      rw [← this]
      rfl
  · rw [if_neg h0] at hhit
    cases hhit

theorem insert_one_local_TWF {t : conc_table} {hf : Ptr → Nat} {k v : Ptr}
    {fuel : Nat} {t2 : conc_table}
    (htwf : TWF hf t) (hpow : ∃ j ≤ t.table_size, t.table_size = 2 ^ j)
    (hk0 : k ≠ 0) (hkT : k ≠ PTR_TOMBSTONE) (hv : v ≠ 0)
    (hres : insert_one_local t hf k v fuel = some t2) :
    TWF hf t2 ∧ t2.table_size = t.table_size ∧ t2.gc_type = t.gc_type ∧
      (liveEntries t2).Perm ((k, v) :: liveEntries t) ∧
      (noTomb t → noTomb t2) := by
  obtain ⟨s, hsC, h0, hpath, rfl⟩ := insert_one_local_inv hpow hres
  have hfree : ¬ live_at t s := not_live_iff.mpr (Or.inl h0)
  refine ⟨TWF_insert_free htwf hsC hfree hk0 hkT hv hpath (pow2_pos hpow), rfl, rfl,
    liveEntries_insert_free htwf.keys_len htwf.vals_len hsC hfree ⟨hk0, hkT⟩, ?_⟩
  intro hnT i hiC hiT
  by_cases his : i = s
  · subst his
    rw [slot_key_set_key_self k (by simpa [set_value] using htwf.keys_len ▸ hsC)] at hiT
    exact hkT hiT
  · rw [slot_key_set_key_ne k (fun he => his he.symm), slot_key_set_value] at hiT
    exact hnT i hiC hiT

theorem insert_one_local_success {t : conc_table} {hf : Ptr → Nat} {k v : Ptr}
    {fuel : Nat}
    (hpow : ∃ j ≤ t.table_size, t.table_size = 2 ^ j)
    (hnull : ∃ i < t.table_size, slot_key t i = 0)
    (hfuel : t.table_size ≤ fuel) :
    ∃ t2, insert_one_local t hf k v fuel = some t2 := by
  have hCpos : 0 < t.table_size := pow2_pos hpow
  have hm_lt : homeSlot hf t.table_size k < t.table_size := Nat.mod_lt _ hCpos
  obtain ⟨d, hdC, hPd, hPmin⟩ :=
    exists_least_probe (P := fun i => slot_key t i = 0) hCpos hm_lt hnull
  refine ⟨set_value (set_key t ((homeSlot hf t.table_size k + d) % t.table_size) k)
    ((homeSlot hf t.table_size k + d) % t.table_size) v, ?_⟩
  unfold insert_one_local
  rw [homeIdx_eq_mod _ hpow]
  exact scanLoop_first_hit _ hpow d _ fuel _ hm_lt (Nat.lt_of_lt_of_le hdC hfuel)
    (fun e he => if_neg (hPmin e he)) (if_pos hPd)

theorem expand_loop_inv {hf : Ptr → Nat} {fuel : Nat} :
    ∀ (entries : List (Ptr × Ptr)) (acc acc2 : conc_table),
      expand_loop hf fuel entries acc = some acc2 →
      TWF hf acc → (∃ j ≤ acc.table_size, acc.table_size = 2 ^ j) →
      (∀ p ∈ entries, (p.1 ≠ 0 ∧ p.1 ≠ PTR_TOMBSTONE) → p.2 ≠ 0) →
      TWF hf acc2 ∧ acc2.table_size = acc.table_size ∧ acc2.gc_type = acc.gc_type ∧
        (liveEntries acc2).Perm (entries.filter livePairB ++ liveEntries acc) ∧
        (noTomb acc → noTomb acc2) := by
  intro entries
  induction entries with
  | nil =>
    intro acc acc2 hres htwf _ _
    obtain rfl : acc = acc2 := Option.some.inj hres
    exact ⟨htwf, rfl, rfl, by simp, fun hn => hn⟩
  | cons p rest ih =>
    intro acc acc2 hres htwf hpow hvals
    obtain ⟨k, v⟩ := p
    rw [expand_loop] at hres
    by_cases hcond : k ≠ 0 ∧ key_is_tombstone k = false
    · rw [if_pos hcond] at hres
      have hkT : k ≠ PTR_TOMBSTONE := key_is_tombstone_false_iff.mp hcond.2
      have hlive : (k, v).1 ≠ 0 ∧ (k, v).1 ≠ PTR_TOMBSTONE := ⟨hcond.1, hkT⟩
      have hv : v ≠ 0 := hvals (k, v) (List.mem_cons_self ..) hlive
      cases hloc : insert_one_local acc hf k v fuel with
      | none => rw [hloc] at hres; cases hres
      | some accm =>
        rw [hloc] at hres
        obtain ⟨htwfm, hszm, hgcm, hpermm, hntm⟩ :=
          insert_one_local_TWF htwf hpow hcond.1 hkT hv hloc
        obtain ⟨htwf2, hsz2, hgc2, hperm2, hnt2⟩ :=
          ih accm acc2 hres htwfm (hszm ▸ hpow)
            (fun q hq hlq => hvals q (List.mem_cons_of_mem _ hq) hlq)
        refine ⟨htwf2, hsz2.trans hszm, hgc2.trans hgcm, ?_, fun hn => hnt2 (hntm hn)⟩
        have hfilter : ((k, v) :: rest).filter livePairB =
            (k, v) :: rest.filter livePairB := by
          rw [List.filter_cons,
            if_pos (by simp only [livePairB, decide_eq_true_eq]; exact ⟨hcond.1, hkT⟩)]
        rw [hfilter]
        exact hperm2.trans
          ((hpermm.append_left (rest.filter livePairB)).trans List.perm_middle)
    · rw [if_neg hcond] at hres
      obtain ⟨htwf2, hsz2, hgc2, hperm2, hnt2⟩ :=
        ih acc acc2 hres htwf hpow
          (fun q hq hlq => hvals q (List.mem_cons_of_mem _ hq) hlq)
      have hnotlive : ¬ (livePairB (k, v) = true) := by
        simp only [livePairB, decide_eq_true_eq]
        intro hc
        exact hcond ⟨hc.1, key_is_tombstone_false_iff.mpr hc.2⟩
      have hfilter : ((k, v) :: rest).filter livePairB = rest.filter livePairB := by
        rw [List.filter_cons, if_neg hnotlive]
      rw [hfilter]
      exact ⟨htwf2, hsz2, hgc2, hperm2, hnt2⟩

theorem expand_loop_success {hf : Ptr → Nat} {fuel : Nat} :
    ∀ (entries : List (Ptr × Ptr)) (acc : conc_table),
      TWF hf acc → (∃ j ≤ acc.table_size, acc.table_size = 2 ^ j) → noTomb acc →
      (∀ p ∈ entries, (p.1 ≠ 0 ∧ p.1 ≠ PTR_TOMBSTONE) → p.2 ≠ 0) →
      liveCount acc + (entries.filter livePairB).length < acc.table_size →
      acc.table_size ≤ fuel →
      ∃ acc2, expand_loop hf fuel entries acc = some acc2 := by
  intro entries
  induction entries with
  | nil => intro acc _ _ _ _ _ _; exact ⟨acc, rfl⟩
  | cons p rest ih =>
    intro acc htwf hpow hnT hvals hbudget hfuel
    obtain ⟨k, v⟩ := p
    rw [expand_loop]
    by_cases hcond : k ≠ 0 ∧ key_is_tombstone k = false
    · rw [if_pos hcond]
      have hkT : k ≠ PTR_TOMBSTONE := key_is_tombstone_false_iff.mp hcond.2
      have hv : v ≠ 0 := hvals (k, v) (List.mem_cons_self ..) ⟨hcond.1, hkT⟩
      have hfilter : ((k, v) :: rest).filter livePairB =
          (k, v) :: rest.filter livePairB := by
        rw [List.filter_cons,
          if_pos (by simp only [livePairB, decide_eq_true_eq]; exact ⟨hcond.1, hkT⟩)]
      rw [hfilter] at hbudget
      have hlc : liveCount acc < acc.table_size := by
        rw [List.length_cons] at hbudget
        omega
      have hnull : ∃ i < acc.table_size, slot_key acc i = 0 := by
        obtain ⟨i, hiC, hnl⟩ := exists_free_slot hlc
        refine ⟨i, hiC, ?_⟩
        rcases not_live_iff.mp hnl with h | h
        · exact h
        · exact absurd h (hnT i hiC)
      obtain ⟨accm, hloc⟩ := insert_one_local_success hpow hnull hfuel
      rw [hloc]
      obtain ⟨htwfm, hszm, -, hpermm, hntm⟩ :=
        insert_one_local_TWF htwf hpow hcond.1 hkT hv hloc
      apply ih accm htwfm (hszm ▸ hpow) (hntm hnT)
        (fun q hq hlq => hvals q (List.mem_cons_of_mem _ hq) hlq)
      · rw [hszm]
        have hlcm : liveCount accm = liveCount acc + 1 := by
          have := hpermm.length_eq
          simpa [liveCount] using this
        rw [hlcm]
        rw [List.length_cons] at hbudget
        omega
      · rw [hszm]
        exact hfuel
    · rw [if_neg hcond]
      have hnotlive : ¬ (livePairB (k, v) = true) := by
        simp only [livePairB, decide_eq_true_eq]
        intro hc
        exact hcond ⟨hc.1, key_is_tombstone_false_iff.mpr hc.2⟩
      have hfilter : ((k, v) :: rest).filter livePairB = rest.filter livePairB := by
        rw [List.filter_cons, if_neg hnotlive]
      rw [hfilter] at hbudget
      exact ih acc htwf hpow hnT
        (fun q hq hlq => hvals q (List.mem_cons_of_mem _ hq) hlq) hbudget hfuel

theorem slot_key_new (gc size i : Nat) : slot_key (conc_table_new gc size) i = 0 := by
  simp only [slot_key, conc_table_new, List.getD_eq_getElem?_getD, List.getElem?_replicate]
  split <;> rfl

theorem slot_value_new (gc size i : Nat) : slot_value (conc_table_new gc size) i = 0 := by
  simp only [slot_value, conc_table_new, List.getD_eq_getElem?_getD, List.getElem?_replicate]
  split <;> rfl

theorem TWF_new (hf : Ptr → Nat) (gc size : Nat) : TWF hf (conc_table_new gc size) := by
  refine ⟨by simp [conc_table_new], by simp [conc_table_new], ?_, ?_⟩
  · intro i _
    rw [slot_key_new, slot_value_new]
    simp
  · intro i _ hlive
    exact absurd (slot_key_new gc size i) hlive.1

theorem liveEntries_new (gc size : Nat) : liveEntries (conc_table_new gc size) = [] := by
  apply List.filterMap_eq_nil_iff.mpr
  intro i _
  rw [if_neg]
  rw [slot_key_new]
  intro hc
  exact hc.1 rfl

theorem noTomb_new (gc size : Nat) : noTomb (conc_table_new gc size) := by
  intro i _
  rw [slot_key_new]
  exact fun hc => tombstone_ne_zero hc.symm

theorem zip_filter_as_filterMap (q : Ptr × Ptr → Bool) :
    ∀ (ks vs : List Ptr), ks.length = vs.length →
      (ks.zip vs).filter q =
        (List.range ks.length).filterMap (fun i =>
          if q (ks.getD i 0, vs.getD i 0) = true then some (ks.getD i 0, vs.getD i 0)
          else none) := by
  intro ks
  induction ks with
  | nil => intro vs _; simp
  | cons a ks ih =>
    intro vs hlen
    cases vs with
    | nil => cases hlen
    | cons b vs =>
      have hih := ih vs (by simpa using hlen)
      have hfun : ((fun i =>
          if q ((a :: ks).getD i 0, (b :: vs).getD i 0) = true then
            some ((a :: ks).getD i 0, (b :: vs).getD i 0)
          else none) ∘ Nat.succ) =
          (fun i => if q (ks.getD i 0, vs.getD i 0) = true then
            some (ks.getD i 0, vs.getD i 0) else none) := by
        funext i
        simp [Function.comp, List.getD_cons_succ]
      rw [List.length_cons, List.range_succ_eq_map, List.zip_cons_cons,
        List.filter_cons, List.filterMap_cons, List.filterMap_map, hfun, ← hih]
      cases hq : q (a, b) with
      | true => simp [hq]
      | false => simp [hq]

theorem zip_livePair {t : conc_table}
    (hkl : t.keys.length = t.table_size) (hvl : t.values.length = t.table_size) :
    (t.keys.zip t.values).filter livePairB = liveEntries t := by
  rw [zip_filter_as_filterMap livePairB t.keys t.values (hkl.trans hvl.symm), hkl]
  unfold liveEntries
  apply List.filterMap_congr
  intro i _
  simp only [livePairB, decide_eq_true_eq, slot_key, slot_value]

theorem zip_value_nonnull {hf : Ptr → Nat} {t : conc_table} (htwf : TWF hf t) :
    ∀ p ∈ t.keys.zip t.values, (p.1 ≠ 0 ∧ p.1 ≠ PTR_TOMBSTONE) → p.2 ≠ 0 := by
  intro p hp hlp
  obtain ⟨i, hzip⟩ := List.mem_iff_getElem?.mp hp
  obtain ⟨hk, hv⟩ := List.getElem?_zip_eq_some.mp hzip
  have hiC : i < t.table_size := by
    rw [← htwf.keys_len]
    obtain ⟨hlt, -⟩ := List.getElem?_eq_some_iff.mp hk
    exact hlt
  have hks : slot_key t i = p.1 := by
    rw [slot_key, List.getD_eq_getElem?_getD, hk]
    rfl
  have hvs : slot_value t i = p.2 := by
    rw [slot_value, List.getD_eq_getElem?_getD, hv]
    rfl
  intro hc
  have hz : slot_value t i = 0 := by rw [hvs, hc]
  rcases (htwf.val_iff i hiC).mp hz with h | h
  · exact hlp.1 (hks ▸ h)
  · exact hlp.2 (hks ▸ h)

theorem expand_table_inv {h : MonoConcGHashTable} {fuel : Nat}
    {h1 : MonoConcGHashTable}
    (hWF : WF h) (hres : expand_table h fuel = some h1) :
    WF h1 ∧ h1.table.table_size = 2 * h.table.table_size ∧
      (liveEntries h1.table).Perm (liveEntries h.table) ∧ noTomb h1.table ∧
      h1.element_count = h.element_count ∧
      h1.overflow_count = load_threshold (2 * h.table.table_size) ∧
      h1.hash_func = h.hash_func ∧ h1.equal_func = h.equal_func := by
  have hCpos : 0 < h.table.table_size := pow2_pos hWF.size_pow2
  obtain ⟨j, hjle, hjeq⟩ := hWF.size_pow2
  have hpow2 : ∃ j2 ≤ h.table.table_size * expandFactor,
      h.table.table_size * expandFactor = 2 ^ j2 := by
    refine ⟨j + 1, by unfold expandFactor; omega, ?_⟩
    rw [hjeq]
    unfold expandFactor
    rw [pow_succ]
  simp only [expand_table] at hres
  cases hloop : expand_loop h.hash_func fuel (h.table.keys.zip h.table.values)
      (conc_table_new h.gc_type (h.table.table_size * expandFactor)) with
  | none => rw [hloop] at hres; cases hres
  | some nt =>
    rw [hloop] at hres
    have hh1 : h1 = { h with table := nt, overflow_count := load_threshold nt.table_size } :=
      (Option.some.inj hres).symm
    subst hh1
    obtain ⟨htwf2, hsz2, -, hperm2, hnt2⟩ :=
      expand_loop_inv _ _ _ hloop (TWF_new _ _ _)
        (by simpa [conc_table_new] using hpow2) (zip_value_nonnull hWF.twf)
    have hsznt : nt.table_size = 2 * h.table.table_size := by
      rw [hsz2]
      simp [conc_table_new, expandFactor]
      omega
    have hperm : (liveEntries nt).Perm (liveEntries h.table) := by
      have := hperm2
      rw [liveEntries_new, List.append_nil,
        zip_livePair hWF.twf.keys_len hWF.twf.vals_len] at this
      exact this
    have hlc : liveCount nt = liveCount h.table := by
      simpa [liveCount] using hperm.length_eq
    have hlcle : (liveCount h.table : Int) ≤ h.element_count := hWF.count_ge
    have hofle : h.element_count ≤ load_threshold h.table.table_size :=
      hWF.overflow_eq ▸ hWF.count_le
    have hmono : load_threshold h.table.table_size ≤
        load_threshold (2 * h.table.table_size) := by
      unfold load_threshold
      have : (3 * h.table.table_size) / 4 ≤ (3 * (2 * h.table.table_size)) / 4 := by
        omega
      exact_mod_cast this
    refine ⟨⟨htwf2, ?_, ?_, ?_, ?_, ?_⟩, hsznt, hperm, hnt2 (noTomb_new _ _), rfl,
      by rw [hsznt], rfl, rfl⟩
    · rw [hsznt]
      refine ⟨j + 1, by omega, by rw [hjeq, pow_succ]; omega⟩
    · rw [hsznt]
      have := hWF.size_min
      omega
    · rw [hlc]
      exact hlcle
    · rw [hsznt]
      exact le_trans hofle hmono
    · rw [hsznt]

theorem expand_table_success {h : MonoConcGHashTable} {fuel : Nat}
    (hWF : WF h) (hfuel : 2 * h.table.table_size ≤ fuel) :
    ∃ h1, expand_table h fuel = some h1 := by
  have hCpos : 0 < h.table.table_size := pow2_pos hWF.size_pow2
  obtain ⟨j, hjle, hjeq⟩ := hWF.size_pow2
  have hpow2 : ∃ j2 ≤ (conc_table_new h.gc_type
        (h.table.table_size * expandFactor)).table_size,
      (conc_table_new h.gc_type (h.table.table_size * expandFactor)).table_size =
        2 ^ j2 := by
    refine ⟨j + 1, by simp [conc_table_new, expandFactor]; omega, ?_⟩
    simp only [conc_table_new]
    rw [hjeq]
    unfold expandFactor
    rw [pow_succ]
  have hlive_le : liveCount h.table ≤ 3 * h.table.table_size / 4 := by
    have h1le : (liveCount h.table : Int) ≤ h.overflow_count :=
      le_trans hWF.count_ge hWF.count_le
    rw [hWF.overflow_eq, load_threshold] at h1le
    exact_mod_cast h1le
  have hbudget : liveCount (conc_table_new h.gc_type
        (h.table.table_size * expandFactor)) +
      ((h.table.keys.zip h.table.values).filter livePairB).length <
      (conc_table_new h.gc_type (h.table.table_size * expandFactor)).table_size := by
    have hlz : liveCount (conc_table_new h.gc_type
        (h.table.table_size * expandFactor)) = 0 := by
      rw [liveCount, liveEntries_new]
      rfl
    rw [hlz, zip_livePair hWF.twf.keys_len hWF.twf.vals_len]
    simp only [conc_table_new]
    unfold expandFactor
    have hle : liveCount h.table = (liveEntries h.table).length := rfl
    omega
  have hfuel2 : (conc_table_new h.gc_type
      (h.table.table_size * expandFactor)).table_size ≤ fuel := by
    simp only [conc_table_new]
    unfold expandFactor
    omega
  obtain ⟨acc2, hloop⟩ := @expand_loop_success h.hash_func fuel
    (h.table.keys.zip h.table.values)
    (conc_table_new h.gc_type (h.table.table_size * expandFactor))
    (TWF_new _ _ _) hpow2 (noTomb_new _ _) (zip_value_nonnull hWF.twf) hbudget hfuel2
  refine ⟨{ h with table := acc2, overflow_count := load_threshold acc2.table_size }, ?_⟩
  simp only [expand_table]
  rw [hloop]

/-! ### Well-formedness is preserved by every completed mutating operation -/

theorem WF_inserted_of_scan {h1 : MonoConcGHashTable} {k v : Ptr} {fuel : Nat}
    {t2 : conc_table} (hWF1 : WF h1) (hk0 : k ≠ 0) (hkT : k ≠ PTR_TOMBSTONE)
    (hv0 : v ≠ 0)
    (hscan : scanLoop (insert_probe_step h1.equal_func h1.table k v)
      (h1.table.table_size - 1)
      (homeIdx (mix_hash (h1.hash_func k)) (h1.table.table_size - 1)) fuel =
      some (.inserted t2))
    (hhead : h1.element_count + 1 ≤ h1.overflow_count) :
    WF { h1 with table := t2, element_count := h1.element_count + 1 } ∧
      (liveEntries t2).Perm ((k, v) :: liveEntries h1.table) ∧
      t2.table_size = h1.table.table_size := by
  have hCpos : 0 < h1.table.table_size := pow2_pos hWF1.size_pow2
  have hm_lt : homeSlot h1.hash_func h1.table.table_size k < h1.table.table_size :=
    Nat.mod_lt _ hCpos
  rw [homeIdx_eq_mod _ hWF1.size_pow2] at hscan
  obtain ⟨d0, -, hhit, hmin⟩ := scanLoop_eq_some _ hWF1.size_pow2 fuel _ _ hm_lt hscan
  obtain ⟨hfree, rfl⟩ := insert_step_inserted_inv hhit
  have hs_lt : (homeSlot h1.hash_func h1.table.table_size k + d0) %
      h1.table.table_size < h1.table.table_size := Nat.mod_lt _ hCpos
  have hpath : ∀ e < probeDist h1.table.table_size
      (homeSlot h1.hash_func h1.table.table_size k)
      ((homeSlot h1.hash_func h1.table.table_size k + d0) % h1.table.table_size),
      slot_key h1.table ((homeSlot h1.hash_func h1.table.table_size k + e) %
        h1.table.table_size) ≠ 0 := by
    intro e he
    have hle := probeDist_le_of_probe (e := d0) hCpos hm_lt
    have he0 := hmin e (Nat.lt_of_lt_of_le he hle)
    have hnfree := insert_step_none_inv he0
    intro hc
    exact hnfree (Or.inl hc)
  have hnl : ¬ live_at h1.table ((homeSlot h1.hash_func h1.table.table_size k + d0) %
      h1.table.table_size) := not_live_iff.mpr hfree
  have htwf2 := TWF_insert_free hWF1.twf hs_lt hnl hk0 hkT hv0 hpath hCpos
  have hperm := liveEntries_insert_free hWF1.twf.keys_len hWF1.twf.vals_len hs_lt hnl
    (k := k) (v := v) ⟨hk0, hkT⟩
  refine ⟨⟨htwf2, hWF1.size_pow2, hWF1.size_min, ?_, hhead, hWF1.overflow_eq⟩,
    hperm, rfl⟩
  have hlc : liveCount (set_key (set_value h1.table
      ((homeSlot h1.hash_func h1.table.table_size k + d0) % h1.table.table_size) v)
      ((homeSlot h1.hash_func h1.table.table_size k + d0) % h1.table.table_size) k) =
      liveCount h1.table + 1 := by
    simpa [liveCount] using hperm.length_eq
  have hge := hWF1.count_ge
  simp only [hlc]
  push_cast
  omega

theorem WF_insert_phase {h1 : MonoConcGHashTable} {k v : Ptr} {fuel : Nat}
    {r : Option Ptr} {h2 : MonoConcGHashTable}
    (hWF1 : WF h1) (hk0 : k ≠ 0) (hkT : k ≠ PTR_TOMBSTONE) (hv0 : v ≠ 0)
    (hhead : h1.element_count + 1 ≤ h1.overflow_count)
    (hres : insert_probe_phase h1 k v fuel = .ok r h2) : WF h2 := by
  simp only [insert_probe_phase] at hres
  cases hscan : scanLoop (insert_probe_step h1.equal_func h1.table k v)
      (h1.table.table_size - 1)
      (homeIdx (mix_hash (h1.hash_func k)) (h1.table.table_size - 1)) fuel with
  | none => rw [hscan] at hres; cases hres
  | some st =>
    rw [hscan] at hres
    cases st with
    | existing w =>
      obtain ⟨-, rfl⟩ := InsertResult.ok.inj hres
      exact hWF1
    | inserted t2 =>
      obtain ⟨-, rfl⟩ := InsertResult.ok.inj hres
      exact (WF_inserted_of_scan hWF1 hk0 hkT hv0 hscan hhead).1

theorem WF_insert {h : MonoConcGHashTable} {k v : Ptr} {fuel : Nat}
    {r : Option Ptr} {h2 : MonoConcGHashTable}
    (hWF : WF h) (hkT : k ≠ PTR_TOMBSTONE)
    (hres : mono_conc_g_hash_table_insert h k v fuel = .ok r h2) : WF h2 := by
  by_cases hk0 : k = 0
  · rw [mono_conc_g_hash_table_insert, if_pos hk0] at hres
    cases hres
  by_cases hv0 : v = 0
  · rw [mono_conc_g_hash_table_insert, if_neg hk0, if_pos hv0] at hres
    cases hres
  simp only [mono_conc_g_hash_table_insert, if_neg hk0, if_neg hv0] at hres
  by_cases hexp : h.overflow_count ≤ h.element_count
  · rw [if_pos hexp] at hres
    cases hexpand : expand_table h fuel with
    | none => rw [hexpand] at hres; cases hres
    | some h1 =>
      rw [hexpand] at hres
      replace hres : insert_probe_phase h1 k v fuel = .ok r h2 := hres
      obtain ⟨hWF1, hsz1, hperm1, -, hcnt1, hof1, -, -⟩ := expand_table_inv hWF hexpand
      have hhead : h1.element_count + 1 ≤ h1.overflow_count := by
        have hle : h.element_count ≤ load_threshold h.table.table_size :=
          hWF.overflow_eq ▸ hWF.count_le
        have hmin32 := hWF.size_min
        rw [hcnt1, hof1]
        unfold load_threshold at hle ⊢
        have hnat : (3 * h.table.table_size) / 4 + 1 ≤
            (3 * (2 * h.table.table_size)) / 4 := by omega
        omega
      exact WF_insert_phase hWF1 hk0 hkT hv0 hhead hres
  · rw [if_neg hexp] at hres
    replace hres : insert_probe_phase h k v fuel = .ok r h2 := hres
    have hhead : h.element_count + 1 ≤ h.overflow_count := by
      rw [not_le] at hexp
      omega
    exact WF_insert_phase hWF hk0 hkT hv0 hhead hres

theorem WF_removed_of_scan {h : MonoConcGHashTable} {k : Ptr} {fuel : Nat}
    {v2 : Ptr} {t2 : conc_table} {ck : Ptr}
    (hWF : WF h) (hkT : k ≠ PTR_TOMBSTONE)
    (hscan : scanLoop (remove_probe_step h.equal_func h.table k)
      (h.table.table_size - 1)
      (homeIdx (mix_hash (h.hash_func k)) (h.table.table_size - 1)) fuel =
      some (.removed v2 t2 ck)) :
    TWF h.hash_func t2 ∧ t2.table_size = h.table.table_size ∧
      liveCount h.table = liveCount t2 + 1 := by
  have hCpos : 0 < h.table.table_size := pow2_pos hWF.size_pow2
  have hm_lt : homeSlot h.hash_func h.table.table_size k < h.table.table_size :=
    Nat.mod_lt _ hCpos
  rw [homeIdx_eq_mod _ hWF.size_pow2] at hscan
  obtain ⟨d0, -, hhit, -⟩ := scanLoop_eq_some _ hWF.size_pow2 fuel _ _ hm_lt hscan
  obtain ⟨hnn, hmB, -, -, rfl⟩ := remove_step_removed_inv hhit
  have hs_lt : (homeSlot h.hash_func h.table.table_size k + d0) %
      h.table.table_size < h.table.table_size := Nat.mod_lt _ hCpos
  have hlive : live_at h.table ((homeSlot h.hash_func h.table.table_size k + d0) %
      h.table.table_size) := by
    refine ⟨hnn, ?_⟩
    cases hef : h.equal_func with
    | none =>
      rw [hef] at hmB
      have hkc := matchesB_none_iff.mp hmB
      rw [← hkc]
      exact hkT
    | some equal =>
      rw [hef] at hmB
      exact key_is_tombstone_false_iff.mp (matchesB_some_iff.mp hmB).1
  have hperm := liveEntries_remove_live hWF.twf.keys_len hWF.twf.vals_len hs_lt hlive
  refine ⟨TWF_remove hWF.twf hs_lt, rfl, ?_⟩
  simpa [liveCount] using hperm.length_eq

theorem WF_remove {h : MonoConcGHashTable} {k : Ptr} {fuel : Nat}
    {r : Option Ptr} {h2 : MonoConcGHashTable} {kd vd : Option Ptr}
    (hWF : WF h) (hkT : k ≠ PTR_TOMBSTONE)
    (hres : mono_conc_g_hash_table_remove h k fuel = .ok r h2 kd vd) : WF h2 := by
  by_cases hk0 : k = 0
  · rw [mono_conc_g_hash_table_remove, if_pos hk0] at hres
    cases hres
  simp only [mono_conc_g_hash_table_remove, if_neg hk0] at hres
  cases hef : h.equal_func with
  | none =>
    rw [hef] at hres
    replace hres : remove_phase_direct h k fuel = .ok r h2 kd vd := hres
    simp only [remove_phase_direct] at hres
    cases hscan : scanLoop (remove_probe_step none h.table k)
        (h.table.table_size - 1)
        (homeIdx (mix_hash (h.hash_func k)) (h.table.table_size - 1)) fuel with
    | none => rw [hscan] at hres; cases hres
    | some st =>
      rw [hscan] at hres
      cases st with
      | notFound =>
        obtain ⟨-, rfl, -, -⟩ := RemoveResult.ok.inj hres
        exact hWF
      | removed v2 t2 ck =>
        obtain ⟨-, rfl, -, -⟩ := RemoveResult.ok.inj hres
        have hscan2 : scanLoop (remove_probe_step h.equal_func h.table k)
            (h.table.table_size - 1)
            (homeIdx (mix_hash (h.hash_func k)) (h.table.table_size - 1)) fuel =
            some (.removed v2 t2 ck) := by rw [hef]; exact hscan
        obtain ⟨htwf2, hsz2, hlc⟩ := WF_removed_of_scan hWF hkT hscan2
        refine ⟨htwf2, hsz2 ▸ hWF.size_pow2, hsz2 ▸ hWF.size_min, ?_, ?_,
          hsz2 ▸ hWF.overflow_eq⟩
        · show (liveCount t2 : Int) ≤ h.element_count - 1
          have hge := hWF.count_ge
          rw [hlc] at hge
          push_cast at hge ⊢
          omega
        · show h.element_count - 1 ≤ h.overflow_count
          have hle := hWF.count_le
          omega
  | some equal =>
    rw [hef] at hres
    replace hres : remove_phase_equal h equal k fuel = .ok r h2 kd vd := hres
    simp only [remove_phase_equal] at hres
    cases hscan : scanLoop (remove_probe_step (some equal) h.table k)
        (h.table.table_size - 1)
        (homeIdx (mix_hash (h.hash_func k)) (h.table.table_size - 1)) fuel with
    | none => rw [hscan] at hres; cases hres
    | some st =>
      rw [hscan] at hres
      cases st with
      | notFound =>
        obtain ⟨-, rfl, -, -⟩ := RemoveResult.ok.inj hres
        exact hWF
      | removed v2 t2 ck =>
        obtain ⟨-, rfl, -, -⟩ := RemoveResult.ok.inj hres
        have hscan2 : scanLoop (remove_probe_step h.equal_func h.table k)
            (h.table.table_size - 1)
            (homeIdx (mix_hash (h.hash_func k)) (h.table.table_size - 1)) fuel =
            some (.removed v2 t2 ck) := by rw [hef]; exact hscan
        obtain ⟨htwf2, hsz2, hlc⟩ := WF_removed_of_scan hWF hkT hscan2
        refine ⟨htwf2, hsz2 ▸ hWF.size_pow2, hsz2 ▸ hWF.size_min, ?_, hWF.count_le,
          hsz2 ▸ hWF.overflow_eq⟩
        show (liveCount t2 : Int) ≤ h.element_count
        have hge := hWF.count_ge
        rw [hlc] at hge
        push_cast at hge ⊢
        omega

theorem WF_init_record (hf : Ptr → Nat) (eq : Option (Ptr → Ptr → Bool))
    (type : Nat) :
    WF { table := conc_table_new 0 INITIAL_SIZE, hash_func := hf, equal_func := eq,
         element_count := 0, overflow_count := load_threshold INITIAL_SIZE,
         key_destroy_func := false, value_destroy_func := false,
         gc_type := type } := by
  refine ⟨TWF_new _ _ _, ⟨5, by simp [conc_table_new, INITIAL_SIZE], ?_⟩,
    ?_, ?_, ?_, ?_⟩
  · simp [conc_table_new, INITIAL_SIZE]
  · simp [conc_table_new, INITIAL_SIZE]
  · have hlc : liveCount (conc_table_new 0 INITIAL_SIZE) = 0 := by
      rw [liveCount, liveEntries_new]
      rfl
    show (liveCount (conc_table_new 0 INITIAL_SIZE) : Int) ≤ 0
    simp [hlc]
  · show (0 : Int) ≤ load_threshold INITIAL_SIZE
    simp [load_threshold, INITIAL_SIZE]
  · show load_threshold INITIAL_SIZE =
      load_threshold (conc_table_new 0 INITIAL_SIZE).table_size
    simp [conc_table_new]

theorem WF_new_type {hash_func : Option (Ptr → Nat)}
    {key_equal_func : Option (Ptr → Ptr → Bool)} {type : Nat}
    {h : MonoConcGHashTable}
    (hres : mono_conc_g_hash_table_new_type hash_func key_equal_func type = some h) :
    WF h := by
  simp only [mono_conc_g_hash_table_new_type] at hres
  by_cases htype : 3 < type
  · rw [if_pos htype] at hres
    cases hres
  · rw [if_neg htype] at hres
    exact (Option.some.inj hres) ▸ WF_init_record _ key_equal_func type

/-- Every reachable table state is well-formed. -/
theorem reachable_WF {h : MonoConcGHashTable} (hR : Reachable h) : WF h := by
  induction hR with
  | init hf eq type h hnew => exact WF_new_type hnew
  | insert_step h k v fuel r h2 _ hk0 hkT hv0 hres ih => exact WF_insert ih hkT hres
  | remove_step h k fuel r h2 kd vd _ hk0 hkT hres ih => exact WF_remove ih hkT hres

/-! ### Fresh insert followed by lookup -/

theorem present_iff_entry {h : MonoConcGHashTable} {k : Ptr} :
    present h k ↔
      ∃ p ∈ liveEntries h.table, matchesB h.equal_func k p.1 = true := by
  constructor
  · rintro ⟨i, hiC, hlive, hm⟩
    exact ⟨(slot_key h.table i, slot_value h.table i),
      mem_liveEntries.mpr ⟨i, hiC, rfl, rfl, hlive.1, hlive.2⟩, hm⟩
  · rintro ⟨⟨k1, v1⟩, hp, hm⟩
    obtain ⟨i, hiC, hk1, hv1, h0, hT⟩ := mem_liveEntries.mp hp
    exact ⟨i, hiC, ⟨by rw [hk1]; exact h0, by rw [hk1]; exact hT⟩,
      by rw [hk1]; exact hm⟩

/-- `insert_probe_phase` on a well-formed table with no matching occupied
slot: the pair is written into the first free slot of `k`'s probe sequence,
the live count, entry list and invariants evolve accordingly, and an
immediate lookup of `k` finds exactly `(k, v)`. -/
theorem insert_phase_fresh {h1 : MonoConcGHashTable} {k v : Ptr} {fuel : Nat}
    (hWF1 : WF h1) (hk0 : k ≠ 0) (hkT : k ≠ PTR_TOMBSTONE) (hv0 : v ≠ 0)
    (hnm : ∀ i < h1.table.table_size, live_at h1.table i →
        matchesB h1.equal_func k (slot_key h1.table i) = false)
    (hmkk : matchesB h1.equal_func k k = true)
    (hhead : h1.element_count + 1 ≤ h1.overflow_count)
    (hfuel : h1.table.table_size ≤ fuel) :
    ∃ h2, insert_probe_phase h1 k v fuel = .ok none h2 ∧
      WF h2 ∧
      (liveEntries h2.table).Perm ((k, v) :: liveEntries h1.table) ∧
      h2.element_count = h1.element_count + 1 ∧
      h2.hash_func = h1.hash_func ∧
      h2.equal_func = h1.equal_func ∧
      h2.table.table_size = h1.table.table_size ∧
      (noTomb h1.table → noTomb h2.table) ∧
      (∃ f, mono_conc_g_hash_table_lookup_extended h2 k f = some (.found k v)) := by
  have hCpos : 0 < h1.table.table_size := pow2_pos hWF1.size_pow2
  have hm_lt : homeSlot h1.hash_func h1.table.table_size k < h1.table.table_size :=
    Nat.mod_lt _ hCpos
  obtain ⟨d, hdC, hpath, hfree, hscan⟩ := insert_scan_fresh (v := v) hWF1 hnm hfuel
  have hs_lt : (homeSlot h1.hash_func h1.table.table_size k + d) %
      h1.table.table_size < h1.table.table_size := Nat.mod_lt _ hCpos
  have hscan2 : scanLoop (insert_probe_step h1.equal_func h1.table k v)
      (h1.table.table_size - 1)
      (homeIdx (mix_hash (h1.hash_func k)) (h1.table.table_size - 1)) fuel =
      some (.inserted (set_key (set_value h1.table
        ((homeSlot h1.hash_func h1.table.table_size k + d) % h1.table.table_size) v)
        ((homeSlot h1.hash_func h1.table.table_size k + d) % h1.table.table_size) k)) := by
    rw [homeIdx_eq_mod _ hWF1.size_pow2]
    exact hscan
  obtain ⟨hWF2, hperm2, hsz2⟩ :=
    WF_inserted_of_scan hWF1 hk0 hkT hv0 hscan2 hhead
  have hks2 : slot_key (set_key (set_value h1.table
      ((homeSlot h1.hash_func h1.table.table_size k + d) % h1.table.table_size) v)
      ((homeSlot h1.hash_func h1.table.table_size k + d) % h1.table.table_size) k)
      ((homeSlot h1.hash_func h1.table.table_size k + d) % h1.table.table_size) = k :=
    slot_key_set_key_self k (by simpa [set_value] using hWF1.twf.keys_len ▸ hs_lt)
  have hvs2 : slot_value (set_key (set_value h1.table
      ((homeSlot h1.hash_func h1.table.table_size k + d) % h1.table.table_size) v)
      ((homeSlot h1.hash_func h1.table.table_size k + d) % h1.table.table_size) k)
      ((homeSlot h1.hash_func h1.table.table_size k + d) % h1.table.table_size) = v := by
    rw [slot_value_set_key]
    exact slot_value_set_value_self v (hWF1.twf.vals_len ▸ hs_lt)
  have hkn2 : ∀ j, j ≠ (homeSlot h1.hash_func h1.table.table_size k + d) %
      h1.table.table_size →
      slot_key (set_key (set_value h1.table
        ((homeSlot h1.hash_func h1.table.table_size k + d) % h1.table.table_size) v)
        ((homeSlot h1.hash_func h1.table.table_size k + d) % h1.table.table_size) k) j =
      slot_key h1.table j := fun j hj => by
    rw [slot_key_set_key_ne k (fun he => hj he.symm)]
    rfl
  refine ⟨_, ?_, hWF2, hperm2, rfl, rfl, rfl, hsz2, ?_, ⟨d + 1, ?_⟩⟩
  · simp only [insert_probe_phase]
    rw [hscan2]
  · intro hnT i hiC hiT
    by_cases his : i = (homeSlot h1.hash_func h1.table.table_size k + d) %
        h1.table.table_size
    · subst his
      rw [hks2] at hiT
      exact hkT hiT
    · rw [hkn2 i his] at hiT
      exact hnT i hiC hiT
  · have hfound := lookup_found_spec (h := { h1 with
      table := set_key (set_value h1.table
        ((homeSlot h1.hash_func h1.table.table_size k + d) % h1.table.table_size) v)
        ((homeSlot h1.hash_func h1.table.table_size k + d) % h1.table.table_size) k,
      element_count := h1.element_count + 1 }) (k := k) (d := d)
      hWF2.size_pow2 ?path ?nn ?mt ?vv
    · simp only [table_size_set_key, table_size_set_value] at hfound
      rw [hks2, hvs2] at hfound
      exact hfound
    case path =>
      simp only [table_size_set_key, table_size_set_value]
      intro e he
      have hne : (homeSlot h1.hash_func h1.table.table_size k + e) %
          h1.table.table_size ≠
          (homeSlot h1.hash_func h1.table.table_size k + d) % h1.table.table_size := by
        intro hc
        have := probe_idx_inj (C := h1.table.table_size)
          (Nat.lt_trans he hdC) hdC hc
        omega
      constructor
      · rw [hkn2 _ hne]
        exact (hpath e he).1
      · rw [hkn2 _ hne]
        exact (hpath e he).2
    case nn =>
      simp only [table_size_set_key, table_size_set_value]
      rw [hks2]
      exact hk0
    case mt =>
      simp only [table_size_set_key, table_size_set_value]
      rw [hks2]
      exact hmkk
    case vv =>
      simp only [table_size_set_key, table_size_set_value]
      rw [hvs2]
      exact hv0

/-- Full insert of an absent key on a reachable (well-formed) state: the
call succeeds with the C `NULL` return, the state evolves by exactly the new
pair (resizing first when the threshold has been reached), and a subsequent
lookup of `k` returns `(k, v)`. -/
theorem insert_fresh_spec {h : MonoConcGHashTable} {k v : Ptr}
    (hWF : WF h) (hk0 : k ≠ 0) (hkT : k ≠ PTR_TOMBSTONE) (hv0 : v ≠ 0)
    (hnp : ¬ present h k)
    (hmkk : matchesB h.equal_func k k = true) :
    ∃ h2, mono_conc_g_hash_table_insert h k v (4 * h.table.table_size) =
        .ok none h2 ∧
      WF h2 ∧
      (liveEntries h2.table).Perm ((k, v) :: liveEntries h.table) ∧
      h2.element_count = h.element_count + 1 ∧
      h2.hash_func = h.hash_func ∧ h2.equal_func = h.equal_func ∧
      (h2.table.table_size = h.table.table_size ∨
        h2.table.table_size = 2 * h.table.table_size) ∧
      (noTomb h.table → noTomb h2.table) ∧
      (∃ f, mono_conc_g_hash_table_lookup_extended h2 k f = some (.found k v)) := by
  have hCpos : 0 < h.table.table_size := pow2_pos hWF.size_pow2
  simp only [mono_conc_g_hash_table_insert, if_neg hk0, if_neg hv0]
  by_cases hexp : h.overflow_count ≤ h.element_count
  · rw [if_pos hexp]
    obtain ⟨h1, hexpand⟩ :=
      @expand_table_success h (4 * h.table.table_size) hWF (by omega)
    rw [hexpand]
    obtain ⟨hWF1, hsz1, hperm1, hnt1, hcnt1, hof1, hhf1, hef1⟩ :=
      expand_table_inv hWF hexpand
    have hhead : h1.element_count + 1 ≤ h1.overflow_count := by
      have hle : h.element_count ≤ load_threshold h.table.table_size :=
        hWF.overflow_eq ▸ hWF.count_le
      have hmin32 := hWF.size_min
      rw [hcnt1, hof1]
      unfold load_threshold at hle ⊢
      have hnat : (3 * h.table.table_size) / 4 + 1 ≤
          (3 * (2 * h.table.table_size)) / 4 := by omega
      omega
    have hnp1 : ¬ present h1 k := by
      intro hp1
      apply hnp
      rw [present_iff_entry] at hp1 ⊢
      obtain ⟨p, hp, hm⟩ := hp1
      exact ⟨p, hperm1.mem_iff.mp hp, by rw [← hef1]; exact hm⟩
    have hnm1 : ∀ i < h1.table.table_size, live_at h1.table i →
        matchesB h1.equal_func k (slot_key h1.table i) = false := by
      intro i hiC hlive
      cases hb : matchesB h1.equal_func k (slot_key h1.table i) with
      | false => rfl
      | true => exact absurd ⟨i, hiC, hlive, hb⟩ hnp1
    have hmkk1 : matchesB h1.equal_func k k = true := by
      rw [hef1]
      exact hmkk
    obtain ⟨h2, hphase, hWF2, hperm2, hcnt2, hhf2, hef2, hsz2, hnt2, hlook⟩ :=
      @insert_phase_fresh h1 k v (4 * h.table.table_size) hWF1 hk0 hkT hv0 hnm1
        hmkk1 hhead (by rw [hsz1]; omega)
    refine ⟨h2, hphase, hWF2, ?_, ?_, hhf2.trans hhf1, hef2.trans hef1, ?_, ?_, hlook⟩
    · exact hperm2.trans (hperm1.cons (k, v))
    · rw [hcnt2, hcnt1]
    · rw [hsz2, hsz1]
      exact Or.inr rfl
    · intro _
      exact hnt2 hnt1
  · rw [if_neg hexp]
    have hhead : h.element_count + 1 ≤ h.overflow_count := by
      rw [not_le] at hexp
      omega
    have hnm : ∀ i < h.table.table_size, live_at h.table i →
        matchesB h.equal_func k (slot_key h.table i) = false := by
      intro i hiC hlive
      cases hb : matchesB h.equal_func k (slot_key h.table i) with
      | false => rfl
      | true => exact absurd ⟨i, hiC, hlive, hb⟩ hnp
    obtain ⟨h2, hphase, hWF2, hperm2, hcnt2, hhf2, hef2, hsz2, hnt2, hlook⟩ :=
      @insert_phase_fresh h k v (4 * h.table.table_size) hWF hk0 hkT hv0 hnm hmkk
        hhead (by omega)
    exact ⟨h2, hphase, hWF2, hperm2, hcnt2, hhf2, hef2, Or.inl hsz2, hnt2, hlook⟩

/-! ### Lookup correctness on identity-mode tables -/

theorem matchesB_none_false_iff {k c : Ptr} : matchesB none k c = false ↔ k ≠ c := by
  simp [matchesB]

theorem mem_liveKeys {t : conc_table} {k : Ptr} :
    k ∈ liveKeys t ↔ ∃ v, (k, v) ∈ liveEntries t := by
  unfold liveKeys
  constructor
  · intro hk
    obtain ⟨p, hp, hpk⟩ := List.mem_map.mp hk
    exact ⟨p.2, by rwa [show (k, p.2) = p from by rw [← hpk]] ⟩
  · rintro ⟨v, hv⟩
    exact List.mem_map.mpr ⟨(k, v), hv, rfl⟩

theorem lookup_found_direct {h : MonoConcGHashTable} {k v : Ptr}
    (hWF : WF h) (hef : h.equal_func = none) (hkT : k ≠ PTR_TOMBSTONE)
    (hmem : (k, v) ∈ liveEntries h.table)
    (hsame : ∀ v2, (k, v2) ∈ liveEntries h.table → v2 = v) :
    ∃ f, mono_conc_g_hash_table_lookup_extended h k f = some (.found k v) := by
  have hCpos : 0 < h.table.table_size := pow2_pos hWF.size_pow2
  have hm_lt : homeSlot h.hash_func h.table.table_size k < h.table.table_size :=
    Nat.mod_lt _ hCpos
  obtain ⟨s, hsC, hks, hvs, hk0, -⟩ := mem_liveEntries.mp hmem
  have hd_eq : (homeSlot h.hash_func h.table.table_size k +
      probeDist h.table.table_size (homeSlot h.hash_func h.table.table_size k) s) %
      h.table.table_size = s := add_probeDist hm_lt hsC
  obtain ⟨d0, hd0C, hPd0, hPmin⟩ := exists_least_probe
    (P := fun i => slot_key h.table i = 0 ∨ slot_key h.table i = k)
    hCpos hm_lt ⟨s, hsC, Or.inr hks⟩
  have hd0_le : d0 ≤ probeDist h.table.table_size
      (homeSlot h.hash_func h.table.table_size k) s := by
    by_contra hlt
    exact hPmin _ (not_le.mp hlt) (by rw [hd_eq]; exact Or.inr hks)
  have hmatch : slot_key h.table ((homeSlot h.hash_func h.table.table_size k + d0) %
      h.table.table_size) = k := by
    rcases hPd0 with h0 | hk2
    · rcases Nat.lt_or_ge d0 (probeDist h.table.table_size
          (homeSlot h.hash_func h.table.table_size k) s) with hlt | hge
      · have hlive_s : live_at h.table s :=
          ⟨fun hc => hk0 (hks.symm.trans hc), fun hc => hkT (hks.symm.trans hc)⟩
        have := hWF.twf.probe_inv s hsC hlive_s d0 (by rw [hks]; exact hlt)
        rw [hks] at this
        exact absurd h0 this
      · have hd0d : d0 = probeDist h.table.table_size
            (homeSlot h.hash_func h.table.table_size k) s := le_antisymm hd0_le hge
        rw [hd0d, hd_eq] at h0
        exact absurd (hks.symm.trans h0) hk0
    · exact hk2
  have hlive0 : live_at h.table ((homeSlot h.hash_func h.table.table_size k + d0) %
      h.table.table_size) :=
    ⟨fun hc => hk0 (hmatch.symm.trans hc), fun hc => hkT (hmatch.symm.trans hc)⟩
  have hval : slot_value h.table ((homeSlot h.hash_func h.table.table_size k + d0) %
      h.table.table_size) = v := by
    apply hsame
    exact mem_liveEntries.mpr ⟨_, Nat.mod_lt _ hCpos, hmatch, rfl, hk0, hkT⟩
  have hvnn : slot_value h.table ((homeSlot h.hash_func h.table.table_size k + d0) %
      h.table.table_size) ≠ 0 := by
    intro hz
    rcases (hWF.twf.val_iff _ (Nat.mod_lt _ hCpos)).mp hz with hc | hc
    · exact hlive0.1 hc
    · exact hlive0.2 hc
  refine ⟨d0 + 1, ?_⟩
  have hfound := lookup_found_spec (h := h) (k := k) (d := d0) hWF.size_pow2
    ?path ?nn ?mt ?vv
  · rw [hmatch, hval] at hfound
    exact hfound
  case path =>
    intro e he
    have hnp := hPmin e he
    push_neg at hnp
    constructor
    · exact hnp.1
    · rw [hef]
      exact matchesB_none_false_iff.mpr (fun hc => hnp.2 hc.symm)
  case nn =>
    rw [hmatch]
    exact hk0
  case mt =>
    rw [hmatch, hef]
    exact matchesB_none_iff.mpr rfl
  case vv => exact hvnn

theorem lookup_notfound_direct {h : MonoConcGHashTable} {k : Ptr}
    (hWF : WF h) (hef : h.equal_func = none) (hk0 : k ≠ 0)
    (hkT : k ≠ PTR_TOMBSTONE)
    (hnm : k ∉ liveKeys h.table) (hnT : noTomb h.table) :
    ∃ f, mono_conc_g_hash_table_lookup_extended h k f = some .notFound := by
  have hCpos : 0 < h.table.table_size := pow2_pos hWF.size_pow2
  have hm_lt : homeSlot h.hash_func h.table.table_size k < h.table.table_size :=
    Nat.mod_lt _ hCpos
  have hlive_lt : liveCount h.table < h.table.table_size := by
    have h1le : (liveCount h.table : Int) ≤ h.overflow_count :=
      le_trans hWF.count_ge hWF.count_le
    rw [hWF.overflow_eq, load_threshold] at h1le
    have h2le : liveCount h.table ≤ 3 * h.table.table_size / 4 := by
      exact_mod_cast h1le
    omega
  have hnull : ∃ i < h.table.table_size, slot_key h.table i = 0 := by
    obtain ⟨i, hiC, hnl⟩ := exists_free_slot hlive_lt
    refine ⟨i, hiC, ?_⟩
    rcases not_live_iff.mp hnl with hz | hT
    · exact hz
    · exact absurd hT (hnT i hiC)
  obtain ⟨d0, hd0C, hPd0, hPmin⟩ := exists_least_probe
    (P := fun i => slot_key h.table i = 0) hCpos hm_lt hnull
  refine ⟨d0 + 1, ?_⟩
  apply lookup_notfound_spec hWF.size_pow2 ?_ hPd0
  intro e he
  have hnz := hPmin e he
  refine ⟨hnz, ?_⟩
  rw [hef]
  apply matchesB_none_false_iff.mpr
  intro hc
  apply hnm
  rw [mem_liveKeys]
  refine ⟨slot_value h.table ((homeSlot h.hash_func h.table.table_size k + e) %
    h.table.table_size), mem_liveEntries.mpr ⟨_, Nat.mod_lt _ hCpos, hc.symm, rfl,
    hk0, hkT⟩⟩

/-! ### Sequences of fresh inserts on an identity-mode table -/

theorem insertAll_spec :
    ∀ (ps : List (Ptr × Ptr)) (h : MonoConcGHashTable),
      WF h → h.equal_func = none → noTomb h.table →
      (∀ p ∈ ps, p.1 ≠ 0 ∧ p.1 ≠ PTR_TOMBSTONE ∧ p.2 ≠ 0) →
      (ps.map Prod.fst).Nodup →
      (∀ p ∈ ps, p.1 ∉ liveKeys h.table) →
      ∃ hfin, insertAll ps h = some hfin ∧ WF hfin ∧
        hfin.equal_func = none ∧ hfin.hash_func = h.hash_func ∧
        noTomb hfin.table ∧
        (liveEntries hfin.table).Perm (ps ++ liveEntries h.table) := by
  intro ps
  induction ps with
  | nil =>
    intro h hWF hef hnT _ _ _
    exact ⟨h, rfl, hWF, hef, rfl, hnT, by simp⟩
  | cons p ps ih =>
    intro h hWF hef hnT hvalid hnd hfresh
    obtain ⟨k, v⟩ := p
    rw [List.map_cons, List.nodup_cons] at hnd
    obtain ⟨hknotin, hndtl⟩ := hnd
    obtain ⟨hk0, hkT, hv0⟩ := hvalid (k, v) (List.mem_cons_self ..)
    have hnp : ¬ present h k := by
      intro hp
      rw [present_iff_entry] at hp
      obtain ⟨p2, hp2, hm2⟩ := hp
      rw [hef, matchesB_none_iff] at hm2
      apply hfresh (k, v) (List.mem_cons_self ..)
      rw [mem_liveKeys]
      exact ⟨p2.2, by rw [hm2]; exact hp2⟩
    have hmkk : matchesB h.equal_func k k = true := by
      rw [hef, matchesB_none_iff]
    obtain ⟨h2, hins, hWF2, hperm2, hcnt2, hhf2, hef2, hsz2, hnt2, -⟩ :=
      insert_fresh_spec hWF hk0 hkT hv0 hnp hmkk
    have hstep : insertAll ((k, v) :: ps) h = insertAll ps h2 := by
      simp only [insertAll, List.foldlM_cons, hins]
      rfl
    have hlk2 : ∀ q ∈ ps, q.1 ∉ liveKeys h2.table := by
      intro q hq hmem
      rw [mem_liveKeys] at hmem
      obtain ⟨v2, hv2⟩ := hmem
      have hv2b := hperm2.mem_iff.mp hv2
      rcases List.mem_cons.mp hv2b with hhd | htl
      · have hq1 : q.1 = k := congrArg Prod.fst hhd
        exact hknotin (hq1 ▸ List.mem_map.mpr ⟨q, hq, rfl⟩)
      · apply hfresh q (List.mem_cons_of_mem _ hq)
        rw [mem_liveKeys]
        exact ⟨v2, htl⟩
    obtain ⟨hfin, hrun, hWFf, heff, hhff, hnTf, hpermf⟩ :=
      ih h2 hWF2 (hef2.trans hef) (hnt2 hnT)
        (fun q hq => hvalid q (List.mem_cons_of_mem _ hq)) hndtl hlk2
    refine ⟨hfin, hstep ▸ hrun, hWFf, heff, hhff.trans hhf2, hnTf, ?_⟩
    exact hpermf.trans ((hperm2.append_left ps).trans List.perm_middle)

/-! ### Capacity bookkeeping of each operation -/

theorem scanLoop_some_imp {β : Type} (f : Nat → Option β) (mask : Nat) :
    ∀ (fuel i : Nat) (b : β), scanLoop f mask i fuel = some b →
      ∃ j, f j = some b := by
  intro fuel
  induction fuel with
  | zero => intro i b h; simp [scanLoop] at h
  | succ fuel ih =>
    intro i b h
    cases hfi : f i with
    | some b2 =>
      simp only [scanLoop, hfi] at h
      exact ⟨i, hfi.trans h⟩
    | none =>
      simp only [scanLoop, hfi] at h
      exact ih _ b h

theorem insert_phase_sizes {h1 : MonoConcGHashTable} {k v : Ptr} {fuel : Nat}
    {r : Option Ptr} {h2 : MonoConcGHashTable}
    (hres : insert_probe_phase h1 k v fuel = .ok r h2) :
    h2.table.table_size = h1.table.table_size ∧
      h2.overflow_count = h1.overflow_count := by
  simp only [insert_probe_phase] at hres
  cases hscan : scanLoop (insert_probe_step h1.equal_func h1.table k v)
      (h1.table.table_size - 1)
      (homeIdx (mix_hash (h1.hash_func k)) (h1.table.table_size - 1)) fuel with
  | none => rw [hscan] at hres; cases hres
  | some st =>
    rw [hscan] at hres
    cases st with
    | existing w =>
      obtain ⟨-, rfl⟩ := InsertResult.ok.inj hres
      exact ⟨rfl, rfl⟩
    | inserted t2 =>
      obtain ⟨-, rfl⟩ := InsertResult.ok.inj hres
      obtain ⟨j, hfj⟩ := scanLoop_some_imp _ _ _ _ _ hscan
      obtain ⟨-, ht2⟩ := insert_step_inserted_inv hfj
      subst ht2
      exact ⟨by simp [table_size_set_key, table_size_set_value], rfl⟩

theorem insert_sizes {h : MonoConcGHashTable} {k v : Ptr} {fuel : Nat}
    {r : Option Ptr} {h2 : MonoConcGHashTable} (hWF : WF h)
    (hres : mono_conc_g_hash_table_insert h k v fuel = .ok r h2) :
    (h.element_count < h.overflow_count →
      h2.table.table_size = h.table.table_size ∧
        h2.overflow_count = h.overflow_count) ∧
    (h.overflow_count ≤ h.element_count →
      h2.table.table_size = 2 * h.table.table_size ∧
        h2.overflow_count = load_threshold (2 * h.table.table_size)) := by
  by_cases hk0 : k = 0
  · rw [mono_conc_g_hash_table_insert, if_pos hk0] at hres
    cases hres
  by_cases hv0 : v = 0
  · rw [mono_conc_g_hash_table_insert, if_neg hk0, if_pos hv0] at hres
    cases hres
  simp only [mono_conc_g_hash_table_insert, if_neg hk0, if_neg hv0] at hres
  by_cases hexp : h.overflow_count ≤ h.element_count
  · rw [if_pos hexp] at hres
    cases hexpand : expand_table h fuel with
    | none => rw [hexpand] at hres; cases hres
    | some h1 =>
      rw [hexpand] at hres
      replace hres : insert_probe_phase h1 k v fuel = .ok r h2 := hres
      obtain ⟨-, hsz1, -, -, -, hof1, -, -⟩ := expand_table_inv hWF hexpand
      obtain ⟨hsz2, hof2⟩ := insert_phase_sizes hres
      refine ⟨fun hlt => absurd hexp (not_le.mpr hlt), fun _ => ?_⟩
      exact ⟨hsz2.trans hsz1, hof2.trans hof1⟩
  · rw [if_neg hexp] at hres
    replace hres : insert_probe_phase h k v fuel = .ok r h2 := hres
    obtain ⟨hsz2, hof2⟩ := insert_phase_sizes hres
    exact ⟨fun _ => ⟨hsz2, hof2⟩, fun hle => absurd hle hexp⟩

theorem remove_phase_direct_sizes {h : MonoConcGHashTable} {k : Ptr} {fuel : Nat}
    {r : Option Ptr} {h2 : MonoConcGHashTable} {kd vd : Option Ptr}
    (hres : remove_phase_direct h k fuel = .ok r h2 kd vd) :
    h2.table.table_size = h.table.table_size ∧
      h2.overflow_count = h.overflow_count := by
  simp only [remove_phase_direct] at hres
  cases hscan : scanLoop (remove_probe_step none h.table k)
      (h.table.table_size - 1)
      (homeIdx (mix_hash (h.hash_func k)) (h.table.table_size - 1)) fuel with
  | none => rw [hscan] at hres; cases hres
  | some st =>
    rw [hscan] at hres
    cases st with
    | notFound =>
      obtain ⟨-, rfl, -, -⟩ := RemoveResult.ok.inj hres
      exact ⟨rfl, rfl⟩
    | removed v2 t2 ck =>
      obtain ⟨-, rfl, -, -⟩ := RemoveResult.ok.inj hres
      obtain ⟨j, hfj⟩ := scanLoop_some_imp _ _ _ _ _ hscan
      obtain ⟨-, -, -, -, ht2⟩ := remove_step_removed_inv hfj
      subst ht2
      exact ⟨by simp [set_key_to_tombstone, table_size_set_key,
        table_size_set_value], rfl⟩

theorem remove_phase_equal_sizes {h : MonoConcGHashTable}
    {equal : Ptr → Ptr → Bool} {k : Ptr} {fuel : Nat}
    {r : Option Ptr} {h2 : MonoConcGHashTable} {kd vd : Option Ptr}
    (hres : remove_phase_equal h equal k fuel = .ok r h2 kd vd) :
    h2.table.table_size = h.table.table_size ∧
      h2.overflow_count = h.overflow_count := by
  simp only [remove_phase_equal] at hres
  cases hscan : scanLoop (remove_probe_step (some equal) h.table k)
      (h.table.table_size - 1)
      (homeIdx (mix_hash (h.hash_func k)) (h.table.table_size - 1)) fuel with
  | none => rw [hscan] at hres; cases hres
  | some st =>
    rw [hscan] at hres
    cases st with
    | notFound =>
      obtain ⟨-, rfl, -, -⟩ := RemoveResult.ok.inj hres
      exact ⟨rfl, rfl⟩
    | removed v2 t2 ck =>
      obtain ⟨-, rfl, -, -⟩ := RemoveResult.ok.inj hres
      obtain ⟨j, hfj⟩ := scanLoop_some_imp _ _ _ _ _ hscan
      obtain ⟨-, -, -, -, ht2⟩ := remove_step_removed_inv hfj
      subst ht2
      exact ⟨by simp [set_key_to_tombstone, table_size_set_key,
        table_size_set_value], rfl⟩

theorem remove_sizes {h : MonoConcGHashTable} {k : Ptr} {fuel : Nat}
    {r : Option Ptr} {h2 : MonoConcGHashTable} {kd vd : Option Ptr}
    (hres : mono_conc_g_hash_table_remove h k fuel = .ok r h2 kd vd) :
    h2.table.table_size = h.table.table_size ∧
      h2.overflow_count = h.overflow_count := by
  by_cases hk0 : k = 0
  · rw [mono_conc_g_hash_table_remove, if_pos hk0] at hres
    cases hres
  simp only [mono_conc_g_hash_table_remove, if_neg hk0] at hres
  cases hef : h.equal_func with
  | none =>
    rw [hef] at hres
    exact remove_phase_direct_sizes hres
  | some equal =>
    rw [hef] at hres
    exact remove_phase_equal_sizes hres

/-! ### Non-termination of the probe loops on an all-tombstone generation -/

theorem scanLoop_none_of_masked {β : Type} {f : Nat → Option β} {mask : Nat}
    (hf : ∀ j ≤ mask, f j = none) :
    ∀ (fuel i : Nat), i ≤ mask → scanLoop f mask i fuel = none := by
  intro fuel
  induction fuel with
  | zero => intro i _; rfl
  | succ fuel ih =>
    intro i hi
    simp only [scanLoop, hf i hi]
    exact ih _ (Nat.and_le_right)

theorem lookup_diverges_of_all_tombstone {h : MonoConcGHashTable} {k : Ptr}
    (hkeys : ∀ j ≤ h.table.table_size - 1, slot_key h.table j = PTR_TOMBSTONE)
    (hef : h.equal_func = none) (hkT : k ≠ PTR_TOMBSTONE) :
    ∀ fuel, mono_conc_g_hash_table_lookup_extended h k fuel = none := by
  have hstep : ∀ j ≤ h.table.table_size - 1,
      lookup_probe_step h.equal_func h.table k j = none := by
    intro j hj
    rw [hef]
    simp only [lookup_probe_step, hkeys j hj]
    rw [if_neg tombstone_ne_zero, if_neg hkT]
  intro fuel
  cases fuel with
  | zero => rfl
  | succ fuel =>
    simp only [mono_conc_g_hash_table_lookup_extended]
    rw [scanLoop_none_of_masked hstep (fuel + 1)
      (homeIdx (mix_hash (h.hash_func k)) (h.table.table_size - 1))
      (by unfold homeIdx; exact Nat.and_le_right)]

theorem remove_diverges_of_all_tombstone {h : MonoConcGHashTable} {k : Ptr}
    (hkeys : ∀ j ≤ h.table.table_size - 1, slot_key h.table j = PTR_TOMBSTONE)
    (hef : h.equal_func = none) (hk0 : k ≠ 0) (hkT : k ≠ PTR_TOMBSTONE) :
    ∀ fuel, mono_conc_g_hash_table_remove h k fuel = .diverge := by
  have hstep : ∀ j ≤ h.table.table_size - 1,
      remove_probe_step none h.table k j = none := by
    intro j hj
    simp only [remove_probe_step, hkeys j hj]
    rw [if_neg tombstone_ne_zero, if_neg hkT]
  intro fuel
  simp only [mono_conc_g_hash_table_remove, if_neg hk0, hef, remove_phase_direct]
  rw [scanLoop_none_of_masked hstep fuel
    (homeIdx (mix_hash (h.hash_func k)) (h.table.table_size - 1))
    (by unfold homeIdx; exact Nat.and_le_right)]

/-- The states built by `insertRemovePair` are reachable. -/
theorem reachable_insertRemovePair {h h2 : MonoConcGHashTable} {k : Ptr}
    (hR : Reachable h) (hk0 : k ≠ 0) (hkT : k ≠ PTR_TOMBSTONE)
    (hp : insertRemovePair h k = some h2) : Reachable h2 := by
  unfold insertRemovePair at hp
  cases hins : mono_conc_g_hash_table_insert h k 1 64 with
  | assertFail => rw [hins] at hp; exact Option.noConfusion hp
  | diverge => rw [hins] at hp; exact Option.noConfusion hp
  | ok w h1 =>
    rw [hins] at hp
    cases w with
    | some w2 => exact Option.noConfusion hp
    | none =>
      replace hp : (match mono_conc_g_hash_table_remove h1 k 64 with
        | .ok (some _) h2b _ _ => some h2b
        | _ => none) = some h2 := hp
      have hR1 : Reachable h1 :=
        Reachable.insert_step h k 1 64 none h1 hR hk0 hkT one_ne_zero hins
      cases hrem : mono_conc_g_hash_table_remove h1 k 64 with
      | assertFail => rw [hrem] at hp; exact Option.noConfusion hp
      | diverge => rw [hrem] at hp; exact Option.noConfusion hp
      | ok w2 h2b kd vd =>
        rw [hrem] at hp
        cases w2 with
        | none => exact Option.noConfusion hp
        | some v2 =>
          obtain rfl : h2b = h2 := Option.some.inj hp
          exact Reachable.remove_step h1 k 64 (some v2) h2b kd vd hR1 hk0 hkT hrem

/-- The all-tombstone state is reachable: thirty-two insert-and-remove
pairs on keys whose mixed home slots are `0, 1, ..., 31` in turn. -/
theorem reachable_tombFullTable : Reachable tombFullTable := by
  have h0 : Reachable (tombState 0) := Reachable.init none none 0 (tombState 0) rfl
  have h1 : Reachable (tombState 1) :=
    reachable_insertRemovePair (k := 10) h0 (by decide) (by decide) rfl
  have h2 : Reachable (tombState 2) :=
    reachable_insertRemovePair (k := 20) h1 (by decide) (by decide) rfl
  have h3 : Reachable (tombState 3) :=
    reachable_insertRemovePair (k := 30) h2 (by decide) (by decide) rfl
  have h4 : Reachable (tombState 4) :=
    reachable_insertRemovePair (k := 1) h3 (by decide) (by decide) rfl
  have h5 : Reachable (tombState 5) :=
    reachable_insertRemovePair (k := 11) h4 (by decide) (by decide) rfl
  have h6 : Reachable (tombState 6) :=
    reachable_insertRemovePair (k := 21) h5 (by decide) (by decide) rfl
  have h7 : Reachable (tombState 7) :=
    reachable_insertRemovePair (k := 2) h6 (by decide) (by decide) rfl
  have h8 : Reachable (tombState 8) :=
    reachable_insertRemovePair (k := 12) h7 (by decide) (by decide) rfl
  have h9 : Reachable (tombState 9) :=
    reachable_insertRemovePair (k := 22) h8 (by decide) (by decide) rfl
  have h10 : Reachable (tombState 10) :=
    reachable_insertRemovePair (k := 3) h9 (by decide) (by decide) rfl
  have h11 : Reachable (tombState 11) :=
    reachable_insertRemovePair (k := 13) h10 (by decide) (by decide) rfl
  have h12 : Reachable (tombState 12) :=
    reachable_insertRemovePair (k := 23) h11 (by decide) (by decide) rfl
  have h13 : Reachable (tombState 13) :=
    reachable_insertRemovePair (k := 33) h12 (by decide) (by decide) rfl
  have h14 : Reachable (tombState 14) :=
    reachable_insertRemovePair (k := 4) h13 (by decide) (by decide) rfl
  have h15 : Reachable (tombState 15) :=
    reachable_insertRemovePair (k := 14) h14 (by decide) (by decide) rfl
  have h16 : Reachable (tombState 16) :=
    reachable_insertRemovePair (k := 34) h15 (by decide) (by decide) rfl
  have h17 : Reachable (tombState 17) :=
    reachable_insertRemovePair (k := 5) h16 (by decide) (by decide) rfl
  have h18 : Reachable (tombState 18) :=
    reachable_insertRemovePair (k := 15) h17 (by decide) (by decide) rfl
  have h19 : Reachable (tombState 19) :=
    reachable_insertRemovePair (k := 25) h18 (by decide) (by decide) rfl
  have h20 : Reachable (tombState 20) :=
    reachable_insertRemovePair (k := 6) h19 (by decide) (by decide) rfl
  have h21 : Reachable (tombState 21) :=
    reachable_insertRemovePair (k := 16) h20 (by decide) (by decide) rfl
  have h22 : Reachable (tombState 22) :=
    reachable_insertRemovePair (k := 26) h21 (by decide) (by decide) rfl
  have h23 : Reachable (tombState 23) :=
    reachable_insertRemovePair (k := 36) h22 (by decide) (by decide) rfl
  have h24 : Reachable (tombState 24) :=
    reachable_insertRemovePair (k := 7) h23 (by decide) (by decide) rfl
  have h25 : Reachable (tombState 25) :=
    reachable_insertRemovePair (k := 27) h24 (by decide) (by decide) rfl
  have h26 : Reachable (tombState 26) :=
    reachable_insertRemovePair (k := 37) h25 (by decide) (by decide) rfl
  have h27 : Reachable (tombState 27) :=
    reachable_insertRemovePair (k := 8) h26 (by decide) (by decide) rfl
  have h28 : Reachable (tombState 28) :=
    reachable_insertRemovePair (k := 18) h27 (by decide) (by decide) rfl
  have h29 : Reachable (tombState 29) :=
    reachable_insertRemovePair (k := 28) h28 (by decide) (by decide) rfl
  have h30 : Reachable (tombState 30) :=
    reachable_insertRemovePair (k := 9) h29 (by decide) (by decide) rfl
  have h31 : Reachable (tombState 31) :=
    reachable_insertRemovePair (k := 19) h30 (by decide) (by decide) rfl
  have h32 : Reachable (tombState 32) :=
    reachable_insertRemovePair (k := 29) h31 (by decide) (by decide) rfl
  exact h32

/-! ### The mixing function against its signed 32-bit specification -/

theorem pat32_lt (x : Int) : pat32 x < 2 ^ 32 := by
  unfold pat32
  have h1 : x % (2 ^ 32 : Int) < 2 ^ 32 := Int.emod_lt_of_pos x (by norm_num)
  omega

theorem pat32_toSigned32 {m : Nat} (hm : m < 2 ^ 32) : pat32 (toSigned32 m) = m := by
  unfold pat32 toSigned32
  split <;> omega

theorem pat32_wrap32 (x : Int) : pat32 (wrap32 x) = pat32 x := by
  unfold wrap32
  rw [pat32_toSigned32 (pat32_lt x)]

theorem pat32_natCast (a : Nat) : pat32 (a : Int) = a % 2 ^ 32 := by
  unfold pat32
  omega

theorem pat32_toSigned32_mul (n c : Nat) (_hn : n < 2 ^ 32) :
    pat32 (toSigned32 n * (c : Int)) = (n * c) % 2 ^ 32 := by
  unfold toSigned32
  split
  · rw [show ((n : Int)) * (c : Int) = ((n * c : Nat) : Int) by push_cast; ring,
      pat32_natCast]
  · rw [show ((n : Int) - 2 ^ 32) * (c : Int) =
      ((n * c : Nat) : Int) - 2 ^ 32 * (c : Int) by push_cast; ring]
    unfold pat32
    omega

theorem pat32_sar16_toSigned32 {m : Nat} (hm : m < 2 ^ 32) :
    pat32 (sar16 (toSigned32 m)) = asr16of32 m := by
  unfold pat32 sar16 toSigned32 asr16of32
  split <;> omega

theorem pat32_xor32I (a b : Int) :
    pat32 (xor32I a b) = Nat.xor (pat32 a) (pat32 b) := by
  unfold xor32I
  exact pat32_toSigned32 (Nat.xor_lt_two_pow (pat32_lt a) (pat32_lt b))

theorem mix_hash_refines (hv : Nat) :
    mix_hash hv = pat32 (mix_hash_spec (toSigned32 (hv % 2 ^ 32))) := by
  have hn : hv % 2 ^ 32 < 2 ^ 32 := Nat.mod_lt _ (by norm_num)
  unfold mix_hash_spec
  rw [pat32_xor32I]
  have h1 : pat32 (sar16 (wrap32 (toSigned32 (hv % 2 ^ 32) * 215497))) =
      asr16of32 ((hv * 215497) % 2 ^ 32) := by
    unfold wrap32
    rw [pat32_sar16_toSigned32 (pat32_lt _),
      show (215497 : Int) = ((215497 : Nat) : Int) from by norm_cast,
      pat32_toSigned32_mul _ _ hn, Nat.mod_mul_mod]
  have h2 : pat32 (wrap32 (toSigned32 (hv % 2 ^ 32) * 1823231 +
      toSigned32 (hv % 2 ^ 32))) = (hv * 1823231 + hv) % 2 ^ 32 := by
    rw [pat32_wrap32,
      show toSigned32 (hv % 2 ^ 32) * 1823231 + toSigned32 (hv % 2 ^ 32) =
        toSigned32 (hv % 2 ^ 32) * ((1823232 : Nat) : Int) from by push_cast; ring,
      pat32_toSigned32_mul _ _ hn, Nat.mod_mul_mod,
      show hv * 1823232 = hv * 1823231 + hv from by ring]
  rw [h1, h2]
  rfl

/-- Probe step `j` of every loop visits slot `(m + j) % C` when the probe
starts at mixed hash `m`. -/
theorem probe_iterate {C : Nat} (hC : ∃ k ≤ C, C = 2 ^ k) (m : Nat) :
    ∀ j, (fun i => nextIdx i (C - 1))^[j] (homeIdx m (C - 1)) = (m + j) % C := by
  intro j
  induction j with
  | zero => simpa using homeIdx_eq_mod m hC
  | succ j ih =>
    rw [Function.iterate_succ_apply']
    show nextIdx ((fun i => nextIdx i (C - 1))^[j] (homeIdx m (C - 1))) (C - 1) = _
    rw [ih, nextIdx_eq_mod _ hC, Nat.mod_add_mod, Nat.add_assoc]

/-! ### Error exits and configuration fields of each operation -/

theorem insert_phase_ne_assertFail (h1 : MonoConcGHashTable) (k v : Ptr)
    (fuel : Nat) : insert_probe_phase h1 k v fuel ≠ .assertFail := by
  intro hres
  simp only [insert_probe_phase] at hres
  cases hscan : scanLoop (insert_probe_step h1.equal_func h1.table k v)
      (h1.table.table_size - 1)
      (homeIdx (mix_hash (h1.hash_func k)) (h1.table.table_size - 1)) fuel with
  | none => rw [hscan] at hres; cases hres
  | some st =>
    rw [hscan] at hres
    cases st with
    | existing w => cases hres
    | inserted t2 => cases hres

theorem remove_phase_direct_ne_assertFail (h : MonoConcGHashTable) (k : Ptr)
    (fuel : Nat) : remove_phase_direct h k fuel ≠ .assertFail := by
  intro hres
  simp only [remove_phase_direct] at hres
  cases hscan : scanLoop (remove_probe_step none h.table k)
      (h.table.table_size - 1)
      (homeIdx (mix_hash (h.hash_func k)) (h.table.table_size - 1)) fuel with
  | none => rw [hscan] at hres; cases hres
  | some st =>
    rw [hscan] at hres
    cases st with
    | notFound => cases hres
    | removed v2 t2 ck => cases hres

theorem remove_phase_equal_ne_assertFail (h : MonoConcGHashTable)
    (equal : Ptr → Ptr → Bool) (k : Ptr) (fuel : Nat) :
    remove_phase_equal h equal k fuel ≠ .assertFail := by
  intro hres
  simp only [remove_phase_equal] at hres
  cases hscan : scanLoop (remove_probe_step (some equal) h.table k)
      (h.table.table_size - 1)
      (homeIdx (mix_hash (h.hash_func k)) (h.table.table_size - 1)) fuel with
  | none => rw [hscan] at hres; cases hres
  | some st =>
    rw [hscan] at hres
    cases st with
    | notFound => cases hres
    | removed v2 t2 ck => cases hres

theorem expand_table_fields {h h1 : MonoConcGHashTable} {fuel : Nat}
    (hres : expand_table h fuel = some h1) : h1.hash_func = h.hash_func := by
  simp only [expand_table] at hres
  cases hloop : expand_loop h.hash_func fuel (h.table.keys.zip h.table.values)
      (conc_table_new h.gc_type (h.table.table_size * expandFactor)) with
  | none => rw [hloop] at hres; cases hres
  | some nt =>
    rw [hloop] at hres
    obtain rfl := Option.some.inj hres
    rfl

theorem insert_phase_hash_func {h1 : MonoConcGHashTable} {k v : Ptr} {fuel : Nat}
    {r : Option Ptr} {h2 : MonoConcGHashTable}
    (hres : insert_probe_phase h1 k v fuel = .ok r h2) :
    h2.hash_func = h1.hash_func := by
  simp only [insert_probe_phase] at hres
  cases hscan : scanLoop (insert_probe_step h1.equal_func h1.table k v)
      (h1.table.table_size - 1)
      (homeIdx (mix_hash (h1.hash_func k)) (h1.table.table_size - 1)) fuel with
  | none => rw [hscan] at hres; cases hres
  | some st =>
    rw [hscan] at hres
    cases st with
    | existing w =>
      obtain ⟨-, rfl⟩ := InsertResult.ok.inj hres
      rfl
    | inserted t2 =>
      obtain ⟨-, rfl⟩ := InsertResult.ok.inj hres
      rfl

theorem insert_hash_func {h : MonoConcGHashTable} {k v : Ptr} {fuel : Nat}
    {r : Option Ptr} {h2 : MonoConcGHashTable}
    (hres : mono_conc_g_hash_table_insert h k v fuel = .ok r h2) :
    h2.hash_func = h.hash_func := by
  by_cases hk0 : k = 0
  · rw [mono_conc_g_hash_table_insert, if_pos hk0] at hres
    cases hres
  by_cases hv0 : v = 0
  · rw [mono_conc_g_hash_table_insert, if_neg hk0, if_pos hv0] at hres
    cases hres
  simp only [mono_conc_g_hash_table_insert, if_neg hk0, if_neg hv0] at hres
  cases hopt : (if h.overflow_count ≤ h.element_count then expand_table h fuel
      else some h) with
  | none => rw [hopt] at hres; cases hres
  | some h1 =>
    rw [hopt] at hres
    have hh1 : h1.hash_func = h.hash_func := by
      by_cases hexp : h.overflow_count ≤ h.element_count
      · rw [if_pos hexp] at hopt
        exact expand_table_fields hopt
      · rw [if_neg hexp] at hopt
        rw [Option.some.inj hopt]
    exact (insert_phase_hash_func hres).trans hh1

theorem remove_hash_func {h : MonoConcGHashTable} {k : Ptr} {fuel : Nat}
    {r : Option Ptr} {h2 : MonoConcGHashTable} {kd vd : Option Ptr}
    (hres : mono_conc_g_hash_table_remove h k fuel = .ok r h2 kd vd) :
    h2.hash_func = h.hash_func := by
  by_cases hk0 : k = 0
  · rw [mono_conc_g_hash_table_remove, if_pos hk0] at hres
    cases hres
  simp only [mono_conc_g_hash_table_remove, if_neg hk0] at hres
  cases hef : h.equal_func with
  | none =>
    rw [hef] at hres
    simp only [remove_phase_direct] at hres
    cases hscan : scanLoop (remove_probe_step none h.table k)
        (h.table.table_size - 1)
        (homeIdx (mix_hash (h.hash_func k)) (h.table.table_size - 1)) fuel with
    | none => rw [hscan] at hres; cases hres
    | some st =>
      rw [hscan] at hres
      cases st with
      | notFound =>
        obtain ⟨-, rfl, -, -⟩ := RemoveResult.ok.inj hres
        rfl
      | removed v2 t2 ck =>
        obtain ⟨-, rfl, -, -⟩ := RemoveResult.ok.inj hres
        rfl
  | some equal =>
    rw [hef] at hres
    simp only [remove_phase_equal] at hres
    cases hscan : scanLoop (remove_probe_step (some equal) h.table k)
        (h.table.table_size - 1)
        (homeIdx (mix_hash (h.hash_func k)) (h.table.table_size - 1)) fuel with
    | none => rw [hscan] at hres; cases hres
    | some st =>
      rw [hscan] at hres
      cases st with
      | notFound =>
        obtain ⟨-, rfl, -, -⟩ := RemoveResult.ok.inj hres
        rfl
      | removed v2 t2 ck =>
        obtain ⟨-, rfl, -, -⟩ := RemoveResult.ok.inj hres
        rfl

/-- The at-threshold state `c5_st` is reachable: twenty-four inserts of
`(i, i + 100)` for `i = 1..24` from a fresh identity-mode table. -/
theorem reachable_c5_st : Reachable c5_st := by
  have r0 : Reachable table0 := Reachable.init none none 0 table0 rfl
  have r1 : Reachable c5s1 :=
    Reachable.insert_step table0 1 101 64 none c5s1 r0
      (by decide) (by decide) (by decide) rfl
  have r2 : Reachable c5s2 :=
    Reachable.insert_step c5s1 2 102 64 none c5s2 r1
      (by decide) (by decide) (by decide) rfl
  have r3 : Reachable c5s3 :=
    Reachable.insert_step c5s2 3 103 64 none c5s3 r2
      (by decide) (by decide) (by decide) rfl
  have r4 : Reachable c5s4 :=
    Reachable.insert_step c5s3 4 104 64 none c5s4 r3
      (by decide) (by decide) (by decide) rfl
  have r5 : Reachable c5s5 :=
    Reachable.insert_step c5s4 5 105 64 none c5s5 r4
      (by decide) (by decide) (by decide) rfl
  have r6 : Reachable c5s6 :=
    Reachable.insert_step c5s5 6 106 64 none c5s6 r5
      (by decide) (by decide) (by decide) rfl
  have r7 : Reachable c5s7 :=
    Reachable.insert_step c5s6 7 107 64 none c5s7 r6
      (by decide) (by decide) (by decide) rfl
  have r8 : Reachable c5s8 :=
    Reachable.insert_step c5s7 8 108 64 none c5s8 r7
      (by decide) (by decide) (by decide) rfl
  have r9 : Reachable c5s9 :=
    Reachable.insert_step c5s8 9 109 64 none c5s9 r8
      (by decide) (by decide) (by decide) rfl
  have r10 : Reachable c5s10 :=
    Reachable.insert_step c5s9 10 110 64 none c5s10 r9
      (by decide) (by decide) (by decide) rfl
  have r11 : Reachable c5s11 :=
    Reachable.insert_step c5s10 11 111 64 none c5s11 r10
      (by decide) (by decide) (by decide) rfl
  have r12 : Reachable c5s12 :=
    Reachable.insert_step c5s11 12 112 64 none c5s12 r11
      (by decide) (by decide) (by decide) rfl
  have r13 : Reachable c5s13 :=
    Reachable.insert_step c5s12 13 113 64 none c5s13 r12
      (by decide) (by decide) (by decide) rfl
  have r14 : Reachable c5s14 :=
    Reachable.insert_step c5s13 14 114 64 none c5s14 r13
      (by decide) (by decide) (by decide) rfl
  have r15 : Reachable c5s15 :=
    Reachable.insert_step c5s14 15 115 64 none c5s15 r14
      (by decide) (by decide) (by decide) rfl
  have r16 : Reachable c5s16 :=
    Reachable.insert_step c5s15 16 116 64 none c5s16 r15
      (by decide) (by decide) (by decide) rfl
  have r17 : Reachable c5s17 :=
    Reachable.insert_step c5s16 17 117 64 none c5s17 r16
      (by decide) (by decide) (by decide) rfl
  have r18 : Reachable c5s18 :=
    Reachable.insert_step c5s17 18 118 64 none c5s18 r17
      (by decide) (by decide) (by decide) rfl
  have r19 : Reachable c5s19 :=
    Reachable.insert_step c5s18 19 119 64 none c5s19 r18
      (by decide) (by decide) (by decide) rfl
  have r20 : Reachable c5s20 :=
    Reachable.insert_step c5s19 20 120 64 none c5s20 r19
      (by decide) (by decide) (by decide) rfl
  have r21 : Reachable c5s21 :=
    Reachable.insert_step c5s20 21 121 64 none c5s21 r20
      (by decide) (by decide) (by decide) rfl
  have r22 : Reachable c5s22 :=
    Reachable.insert_step c5s21 22 122 64 none c5s22 r21
      (by decide) (by decide) (by decide) rfl
  have r23 : Reachable c5s23 :=
    Reachable.insert_step c5s22 23 123 64 none c5s23 r22
      (by decide) (by decide) (by decide) rfl
  have r24 : Reachable c5_st :=
    Reachable.insert_step c5s23 24 124 64 none c5_st r23
      (by decide) (by decide) (by decide) rfl
  exact r24

/-- The tombstone-before-the-key state `c5_s3` is reachable: insert
`(7, 107)` and `(17, 117)`, then remove `7`. -/
theorem reachable_c5_s3 : Reachable c5_s3 := by
  have r0 : Reachable table0 := Reachable.init none none 0 table0 rfl
  have r1 : Reachable (insOkState (mono_conc_g_hash_table_insert table0 7 107 64)
      table0) :=
    Reachable.insert_step table0 7 107 64 none _ r0
      (by decide) (by decide) (by decide) rfl
  have r2 : Reachable (insOkState (mono_conc_g_hash_table_insert
      (insOkState (mono_conc_g_hash_table_insert table0 7 107 64) table0)
      17 117 64) table0) :=
    Reachable.insert_step _ 17 117 64 none _ r1
      (by decide) (by decide) (by decide) rfl
  exact Reachable.remove_step _ 7 64 (some 107) c5_s3 none none r2
    (by decide) (by decide) rfl

/-! ### The claims -/

/-- C6: in every reachable table state — the initial all-zero generation and
every state reached through completed inserts, removes and implicit resizes —
a slot's value cell is null exactly when the slot is free: its key cell is
null (`Empty`) or holds the tombstone sentinel (`Tombstone`); equivalently,
every occupied slot has a non-null value cell. -/
theorem C6_value_null_iff_free {h : MonoConcGHashTable} (hR : Reachable h) :
    ∀ i < h.table.table_size,
      (slot_value h.table i = 0 ↔
        (slot_key h.table i = 0 ∨ slot_key h.table i = PTR_TOMBSTONE)) :=
  (reachable_WF hR).twf.val_iff

theorem C6_value_null_iff_free_witness :
    slot_value table0.table 0 = 0 ↔
      (slot_key table0.table 0 = 0 ∨ slot_key table0.table 0 = PTR_TOMBSTONE) :=
  C6_value_null_iff_free (Reachable.init none none 0 table0 rfl) 0 (by decide)

/-- C8: the capacity invariant.  A newly constructed table has capacity
`INITIAL_SIZE = 32` with threshold `⌊0.75 · 32⌋`; every reachable state has a
power-of-two capacity of at least 32 whose threshold is `⌊0.75 · capacity⌋`;
a completed insert below the threshold preserves capacity and threshold,
while a completed insert that finds the count at or above the threshold
doubles the capacity exactly once and installs the doubled capacity's
threshold; a completed remove never changes capacity or threshold. -/
theorem C8_capacity_invariant :
    (∀ hf eqf type h,
      mono_conc_g_hash_table_new_type hf eqf type = some h →
        h.table.table_size = INITIAL_SIZE ∧
          h.overflow_count = load_threshold INITIAL_SIZE) ∧
    (∀ h, Reachable h →
      (∃ j ≤ h.table.table_size, h.table.table_size = 2 ^ j) ∧
        INITIAL_SIZE ≤ h.table.table_size ∧
        h.overflow_count = load_threshold h.table.table_size) ∧
    (∀ h k v fuel r h2, Reachable h →
      mono_conc_g_hash_table_insert h k v fuel = .ok r h2 →
        (h.element_count < h.overflow_count →
          h2.table.table_size = h.table.table_size ∧
            h2.overflow_count = h.overflow_count) ∧
        (h.overflow_count ≤ h.element_count →
          h2.table.table_size = 2 * h.table.table_size ∧
            h2.overflow_count = load_threshold (2 * h.table.table_size))) ∧
    (∀ h k fuel r h2 kd vd,
      mono_conc_g_hash_table_remove h k fuel = .ok r h2 kd vd →
        h2.table.table_size = h.table.table_size ∧
          h2.overflow_count = h.overflow_count) := by
  refine ⟨?_, ?_, ?_, ?_⟩
  · intro hf eqf type h hres
    by_cases htype : 3 < type
    · simp only [mono_conc_g_hash_table_new_type, if_pos htype] at hres
      cases hres
    · simp only [mono_conc_g_hash_table_new_type, if_neg htype] at hres
      obtain rfl := Option.some.inj hres
      exact ⟨rfl, rfl⟩
  · intro h hR
    exact ⟨(reachable_WF hR).size_pow2, (reachable_WF hR).size_min,
      (reachable_WF hR).overflow_eq⟩
  · intro h k v fuel r h2 hR hres
    exact insert_sizes (reachable_WF hR) hres
  · intro h k fuel r h2 kd vd hres
    exact remove_sizes hres

theorem C8_capacity_invariant_witness :
    table0.table.table_size = INITIAL_SIZE ∧
      table0.overflow_count = load_threshold INITIAL_SIZE :=
  C8_capacity_invariant.1 none none 0 table0 rfl

/-- C9: the `g_assert` / `g_error` exits fire exactly on the usage
violations: insert fails the assertion precisely when the key or the value
is null, remove precisely when the key is null, and construction aborts
precisely when the GC-tracking mode is above `MONO_HASH_KEY_VALUE_GC = 3`;
no other input makes these operations signal an error (an unsuccessful
probe is the normal not-found return, not an error). -/
theorem C9_usage_violations :
    (∀ h k v fuel,
      mono_conc_g_hash_table_insert h k v fuel = .assertFail ↔ (k = 0 ∨ v = 0)) ∧
    (∀ h k fuel,
      mono_conc_g_hash_table_remove h k fuel = .assertFail ↔ k = 0) ∧
    (∀ hf eqf type,
      mono_conc_g_hash_table_new_type hf eqf type = none ↔ 3 < type) := by
  refine ⟨?_, ?_, ?_⟩
  · intro h k v fuel
    constructor
    · intro hres
      by_cases hk0 : k = 0
      · exact Or.inl hk0
      by_cases hv0 : v = 0
      · exact Or.inr hv0
      exfalso
      simp only [mono_conc_g_hash_table_insert, if_neg hk0, if_neg hv0] at hres
      cases hopt : (if h.overflow_count ≤ h.element_count then expand_table h fuel
          else some h) with
      | none => rw [hopt] at hres; cases hres
      | some h1 =>
        rw [hopt] at hres
        exact insert_phase_ne_assertFail h1 k v fuel hres
    · intro hor
      rcases hor with hk0 | hv0
      · rw [mono_conc_g_hash_table_insert, if_pos hk0]
      · by_cases hk0 : k = 0
        · rw [mono_conc_g_hash_table_insert, if_pos hk0]
        · rw [mono_conc_g_hash_table_insert, if_neg hk0, if_pos hv0]
  · intro h k fuel
    constructor
    · intro hres
      by_cases hk0 : k = 0
      · exact hk0
      exfalso
      simp only [mono_conc_g_hash_table_remove, if_neg hk0] at hres
      cases hef : h.equal_func with
      | none =>
        rw [hef] at hres
        exact remove_phase_direct_ne_assertFail h k fuel hres
      | some equal =>
        rw [hef] at hres
        exact remove_phase_equal_ne_assertFail h equal k fuel hres
    · intro hk0
      rw [mono_conc_g_hash_table_remove, if_pos hk0]
  · intro hf eqf type
    constructor
    · intro hres
      by_cases htype : 3 < type
      · exact htype
      · simp only [mono_conc_g_hash_table_new_type, if_neg htype] at hres
        cases hres
    · intro htype
      simp only [mono_conc_g_hash_table_new_type, if_pos htype]

/-- C10: a null hash function at construction is replaced by glib's
`g_direct_hash` (pointer identity): construction still succeeds (for a valid
GC mode), the constructed table's hash function is `g_direct_hash` — so every
subsequent lookup, insert, remove and resize rehash, all of which address
slots through the table's stored hash function, use pointer-identity
hashing — and the resulting table is indistinguishable from one constructed
with `g_direct_hash` passed explicitly.  Completed inserts and removes
preserve the stored hash function. -/
theorem C10_null_hash_uses_direct :
    (∀ eqf type, mono_conc_g_hash_table_new_type none eqf type =
        mono_conc_g_hash_table_new_type (some g_direct_hash) eqf type) ∧
    (∀ eqf type, type ≤ 3 →
      ∃ h, mono_conc_g_hash_table_new_type none eqf type = some h ∧
        h.hash_func = g_direct_hash) ∧
    (∀ h k v fuel r h2, mono_conc_g_hash_table_insert h k v fuel = .ok r h2 →
      h2.hash_func = h.hash_func) ∧
    (∀ h k fuel r h2 kd vd,
      mono_conc_g_hash_table_remove h k fuel = .ok r h2 kd vd →
        h2.hash_func = h.hash_func) := by
  refine ⟨fun eqf type => rfl, ?_, ?_, ?_⟩
  · intro eqf type htype
    simp only [mono_conc_g_hash_table_new_type, if_neg (not_lt.mpr htype)]
    exact ⟨_, rfl, rfl⟩
  · intro h k v fuel r h2 hres
    exact insert_hash_func hres
  · intro h k fuel r h2 kd vd hres
    exact remove_hash_func hres

theorem C10_null_hash_uses_direct_witness :
    ∃ h, mono_conc_g_hash_table_new_type none none 0 = some h ∧
      h.hash_func = g_direct_hash :=
  C10_null_hash_uses_direct.2.1 none 0 (by decide)

/-- C7: the mixing function agrees with the specified
`mix(h) = ((h * 215497) >> 16) XOR (h * 1823231 + h)` computed on signed
32-bit values with wraparound (bit-pattern for bit-pattern, with `>>`
arithmetic); in a generation of power-of-two capacity `C` the home slot of a
mixed hash `m` is `m & (C−1)`, which equals `m % C`; the linear-probe step
`i = (i+1) & (C−1)` equals `(i+1) % C`; and hence the slot visited at probe
offset `j` is `(m + j) % C`.  `homeIdx`, `nextIdx` and `mix_hash` are the
addressing scheme used verbatim by the lookup, insert, remove and
`insert_one_local` rehash loops. -/
theorem C7_mix_and_addressing :
    (∀ hv, mix_hash hv = pat32 (mix_hash_spec (toSigned32 (hv % 2 ^ 32)))) ∧
    (∀ C, (∃ k ≤ C, C = 2 ^ k) → ∀ m, homeIdx m (C - 1) = m % C) ∧
    (∀ C, (∃ k ≤ C, C = 2 ^ k) → ∀ i, nextIdx i (C - 1) = (i + 1) % C) ∧
    (∀ C, (∃ k ≤ C, C = 2 ^ k) → ∀ m j,
      (fun i => nextIdx i (C - 1))^[j] (homeIdx m (C - 1)) = (m + j) % C) :=
  ⟨mix_hash_refines, fun _ hC m => homeIdx_eq_mod m hC,
   fun _ hC i => nextIdx_eq_mod i hC, fun _ hC m j => probe_iterate hC m j⟩

theorem C7_mix_and_addressing_witness :
    mix_hash 5 = pat32 (mix_hash_spec (toSigned32 (5 % 2 ^ 32))) ∧
    homeIdx 77 (32 - 1) = 77 % 32 ∧
    nextIdx 31 (32 - 1) = (31 + 1) % 32 ∧
    (fun i => nextIdx i (32 - 1))^[3] (homeIdx 77 (32 - 1)) = (77 + 3) % 32 :=
  ⟨C7_mix_and_addressing.1 5,
   C7_mix_and_addressing.2.1 32 ⟨5, by decide, by decide⟩ 77,
   C7_mix_and_addressing.2.2.1 32 ⟨5, by decide, by decide⟩ 31,
   C7_mix_and_addressing.2.2.2 32 ⟨5, by decide, by decide⟩ 77 3⟩

/-- C3: from any reachable state, inserting a valid pair `(k, v)` whose key
is not currently present — including keys whose probe path crosses
tombstones left by earlier removes — returns the C `NULL` (fresh-key) result
and a subsequent lookup of `k` finds exactly the pair `(k, v)`; the
reflexivity proviso on the equality callback is vacuous in identity mode and
satisfied by any genuine equality predicate. -/
theorem C3_insert_then_lookup {h : MonoConcGHashTable} {k v : Ptr}
    (hR : Reachable h) (hk0 : k ≠ 0) (hkT : k ≠ PTR_TOMBSTONE) (hv0 : v ≠ 0)
    (hnp : ¬ present h k)
    (hrefl : ∀ equal, h.equal_func = some equal → equal k k = true) :
    ∃ h2, mono_conc_g_hash_table_insert h k v (4 * h.table.table_size) =
        .ok none h2 ∧
      ∃ f, mono_conc_g_hash_table_lookup_extended h2 k f =
        some (.found k v) := by
  have hmkk : matchesB h.equal_func k k = true := by
    cases hef : h.equal_func with
    | none => exact matchesB_none_iff.mpr rfl
    | some equal =>
      exact matchesB_some_iff.mpr
        ⟨key_is_tombstone_false_iff.mpr hkT, hrefl equal hef⟩
  obtain ⟨h2, hins, -, -, -, -, -, -, -, hlook⟩ :=
    insert_fresh_spec (reachable_WF hR) hk0 hkT hv0 hnp hmkk
  exact ⟨h2, hins, hlook⟩

theorem C3_insert_then_lookup_witness :
    ∃ h2, mono_conc_g_hash_table_insert table0 5 7 (4 * table0.table.table_size) =
        .ok none h2 ∧
      ∃ f, mono_conc_g_hash_table_lookup_extended h2 5 f = some (.found 5 7) :=
  C3_insert_then_lookup (Reachable.init none none 0 table0 rfl)
    (by decide) (by decide) (by decide) (by decide)
    (fun equal h => Option.noConfusion h)

/-- C1 (refuted — code bug): on a table constructed with an equality
function, the remove path returns the stored value and tombstones the slot
(a subsequent lookup reports not-found), but does not decrement the
live-element count: after inserting `(5, 7)` into the fresh equality-mode
table (count 1) and removing key `5`, the table holds no live entry yet
`element_count` is still 1.  The identity-mode branch decrements; the
equality-function branch of the source omits the `element_count` decrement. -/
theorem C1_equality_remove_keeps_count :
    mono_conc_g_hash_table_new_type none (some ptrEqFn) 0 = some table0eq ∧
    mono_conc_g_hash_table_insert table0eq 5 7 64 = .ok none c1_h1 ∧
    c1_h1.element_count = 1 ∧
    mono_conc_g_hash_table_remove c1_h1 5 64 = .ok (some 7) c1_h2 none none ∧
    mono_conc_g_hash_table_lookup_extended c1_h2 5 64 = some .notFound ∧
    liveCount c1_h2.table = 0 ∧
    c1_h2.element_count = 1 :=
  ⟨rfl, rfl, rfl, rfl, rfl, rfl, rfl⟩

/-- C2 (refuted — code bug): a reachable identity-mode state whose
generation consists entirely of tombstones (32 inserts each followed by a
remove, never triggering a resize) makes the probe loops of lookup and
remove diverge for any absent non-null key: no slot on the cyclic probe
sequence is ever a null key cell or a match, so the `while (TRUE)` loops of
the source never exit, for any amount of fuel. -/
theorem C2_all_tombstones_diverge :
    Reachable tombFullTable ∧
    tombFullTable.table.keys = List.replicate 32 PTR_TOMBSTONE ∧
    tombFullTable.element_count = 0 ∧
    (∀ fuel, mono_conc_g_hash_table_lookup_extended tombFullTable 1000 fuel =
      none) ∧
    (∀ fuel, mono_conc_g_hash_table_remove tombFullTable 1000 fuel =
      .diverge) := by
  have hkeys : ∀ j ≤ tombFullTable.table.table_size - 1,
      slot_key tombFullTable.table j = PTR_TOMBSTONE := by
    intro j hj
    have hsz : tombFullTable.table.table_size = 32 := rfl
    rw [hsz] at hj
    show tombFullTable.table.keys.getD j 0 = PTR_TOMBSTONE
    rw [show tombFullTable.table.keys = List.replicate 32 PTR_TOMBSTONE from rfl,
      List.getD_eq_getElem?_getD, List.getElem?_replicate_of_lt (by omega)]
    rfl
  refine ⟨reachable_tombFullTable, rfl, rfl, ?_, ?_⟩
  · exact lookup_diverges_of_all_tombstone hkeys rfl (by decide)
  · exact remove_diverges_of_all_tombstone hkeys rfl (by decide) (by decide)

/-- C5 (counterexample): insert on a present key is not always
insert-if-absent.  (1) With keys `7` and `17` sharing home slot 23, after
inserting both and removing `7`, key `17` is present (count 1), yet
`insert(17, 999)` lands on the tombstone left at slot 23 before the probe
reaches `17`'s slot: it returns the fresh-key result `NULL`, mutates the
table, increments the count to 2, and leaves two live entries for key `17`.
(2) With the live count at the resize threshold (24 entries in capacity 32),
`insert(1, 999)` on the already-present key `1` returns the stored value but
first doubles the capacity — the table is modified although the key was
present. -/
theorem C5_insert_if_absent_violated :
    c5_s3O = some c5_s3 ∧
    Reachable c5_s3 ∧
    present c5_s3 17 ∧
    c5_s3.element_count = 1 ∧
    mono_conc_g_hash_table_insert c5_s3 17 999 64 = .ok none c5_s4 ∧
    c5_s4.element_count = 2 ∧
    (17, 117) ∈ liveEntries c5_s4.table ∧
    (17, 999) ∈ liveEntries c5_s4.table ∧
    Reachable c5_st ∧
    c5_st.element_count = 24 ∧
    c5_st.table.table_size = 32 ∧
    present c5_st 1 ∧
    mono_conc_g_hash_table_insert c5_st 1 999 256 = .ok (some 101) c5_st2 ∧
    c5_st2.table.table_size = 64 :=
  ⟨rfl, reachable_c5_s3, by decide, rfl, rfl, rfl, by decide, by decide,
   reachable_c5_st, rfl, rfl, by decide, rfl, rfl⟩

/-- C5 (amended): for a reachable state strictly below the resize threshold
in which key `k` is present at probe offset `d` and no earlier slot of `k`'s
probe path is free (null) or tombstoned, `insert(k, v1)` returns the value
stored for `k` and leaves the state exactly unchanged. -/
theorem C5_insert_present_unchanged {h : MonoConcGHashTable} {k v1 : Ptr}
    {fuel d : Nat} (hR : Reachable h) (hk0 : k ≠ 0) (hv : v1 ≠ 0)
    (hno : h.element_count < h.overflow_count) (hfuel : d < fuel)
    (hpath : ∀ e < d,
      ¬ (slot_key h.table ((homeSlot h.hash_func h.table.table_size k + e) %
          h.table.table_size) = 0 ∨
        slot_key h.table ((homeSlot h.hash_func h.table.table_size k + e) %
          h.table.table_size) = PTR_TOMBSTONE) ∧
      matchesB h.equal_func k (slot_key h.table
        ((homeSlot h.hash_func h.table.table_size k + e) %
          h.table.table_size)) = false)
    (hnf : ¬ (slot_key h.table ((homeSlot h.hash_func h.table.table_size k + d) %
        h.table.table_size) = 0 ∨
      slot_key h.table ((homeSlot h.hash_func h.table.table_size k + d) %
        h.table.table_size) = PTR_TOMBSTONE))
    (hmt : matchesB h.equal_func k (slot_key h.table
        ((homeSlot h.hash_func h.table.table_size k + d) %
          h.table.table_size)) = true) :
    mono_conc_g_hash_table_insert h k v1 fuel =
      .ok (some (slot_value h.table
        ((homeSlot h.hash_func h.table.table_size k + d) %
          h.table.table_size))) h :=
  insert_spec_existing (reachable_WF hR).size_pow2 hk0 hv hno hfuel hpath hnf hmt

theorem C5_insert_present_unchanged_witness :
    mono_conc_g_hash_table_insert c5w_s1 5 9 1 =
      .ok (some (slot_value c5w_s1.table
        ((homeSlot c5w_s1.hash_func c5w_s1.table.table_size 5 + 0) %
          c5w_s1.table.table_size))) c5w_s1 :=
  C5_insert_present_unchanged
    (Reachable.insert_step table0 5 7 64 none c5w_s1
      (Reachable.init none none 0 table0 rfl)
      (by decide) (by decide) (by decide) rfl)
    (by decide) (by decide) (by decide) (by decide)
    (fun e he => absurd he (Nat.not_lt_zero e))
    (by decide) (by decide)

/-- C4: resizing preserves membership.  The resize engine, run on any
reachable state with enough fuel, succeeds and rebuilds a generation of
twice the capacity whose live entries are a permutation of the old
generation's live entries (and contain no tombstones); consequently, after
inserting any list of distinct valid keys into a fresh identity-mode table —
however many doubling thresholds the sequence crosses — every inserted key
is reachable by lookup with its (unique) written value, and every other
valid key is reported not-found. -/
theorem C4_resize_preserves_membership :
    (∀ h fuel, Reachable h → 2 * h.table.table_size ≤ fuel →
      ∃ h1, expand_table h fuel = some h1 ∧
        (liveEntries h1.table).Perm (liveEntries h.table) ∧
        h1.table.table_size = 2 * h.table.table_size ∧ noTomb h1.table) ∧
    (∀ (hf : Ptr → Nat) (ps : List (Ptr × Ptr)),
      (ps.map Prod.fst).Nodup →
      (∀ p ∈ ps, p.1 ≠ 0 ∧ p.1 ≠ PTR_TOMBSTONE ∧ p.2 ≠ 0) →
      ∃ hfin, insertAll ps (mkDirectTable hf) = some hfin ∧
        (∀ p ∈ ps, ∃ f,
          mono_conc_g_hash_table_lookup_extended hfin p.1 f =
            some (.found p.1 p.2)) ∧
        (∀ k2, k2 ≠ 0 → k2 ≠ PTR_TOMBSTONE → k2 ∉ ps.map Prod.fst →
          ∃ f, mono_conc_g_hash_table_lookup_extended hfin k2 f =
            some .notFound)) := by
  constructor
  · intro h fuel hR hfuel
    obtain ⟨h1, hexp⟩ := expand_table_success (reachable_WF hR) hfuel
    obtain ⟨-, hsz, hperm, hnT, -, -, -, -⟩ :=
      expand_table_inv (reachable_WF hR) hexp
    exact ⟨h1, hexp, hperm, hsz, hnT⟩
  · intro hf ps hnd hvalid
    have hWF0 : WF (mkDirectTable hf) := WF_init_record hf none 0
    have hnT0 : noTomb (mkDirectTable hf).table := noTomb_new 0 INITIAL_SIZE
    have hle0 : liveEntries (mkDirectTable hf).table = [] :=
      liveEntries_new 0 INITIAL_SIZE
    have hfresh : ∀ p ∈ ps, p.1 ∉ liveKeys (mkDirectTable hf).table := by
      intro p hp hmem
      rw [mem_liveKeys] at hmem
      obtain ⟨v, hv⟩ := hmem
      rw [hle0] at hv
      exact absurd hv (List.not_mem_nil _)
    obtain ⟨hfin, hrun, hWFf, heff, -, hnTf, hpermf⟩ :=
      insertAll_spec ps (mkDirectTable hf) hWF0 rfl hnT0 hvalid hnd hfresh
    rw [hle0, List.append_nil] at hpermf
    refine ⟨hfin, hrun, ?_, ?_⟩
    · intro p hp
      obtain ⟨hk0, hkT, -⟩ := hvalid p hp
      apply lookup_found_direct hWFf heff hkT
        (hpermf.mem_iff.mpr (by simpa using hp))
      intro v2 hv2
      have hv2b : (p.1, v2) ∈ ps := hpermf.mem_iff.mp hv2
      have hpair : (p.1, v2) = p := List.inj_on_of_nodup_map hnd hv2b hp rfl
      exact congrArg Prod.snd hpair
    · intro k2 hk20 hk2T hk2nm
      apply lookup_notfound_direct hWFf heff hk20 hk2T ?_ hnTf
      intro hmem
      rw [mem_liveKeys] at hmem
      obtain ⟨v2, hv2⟩ := hmem
      exact hk2nm (List.mem_map.mpr ⟨(k2, v2), hpermf.mem_iff.mp hv2, rfl⟩)

theorem C4_resize_preserves_membership_witness :
    ∃ hfin, insertAll [(7, 107), (17, 117)] (mkDirectTable g_direct_hash) =
        some hfin ∧
      (∀ p ∈ [((7 : Ptr), (107 : Ptr)), (17, 117)], ∃ f,
        mono_conc_g_hash_table_lookup_extended hfin p.1 f =
          some (.found p.1 p.2)) ∧
      (∀ k2, k2 ≠ 0 → k2 ≠ PTR_TOMBSTONE →
        k2 ∉ [((7 : Ptr), (107 : Ptr)), (17, 117)].map Prod.fst →
        ∃ f, mono_conc_g_hash_table_lookup_extended hfin k2 f =
          some .notFound) :=
  C4_resize_preserves_membership.2 g_direct_hash [(7, 107), (17, 117)]
    (by decide) (by decide)

end MonoConcHash
